import Mathlib

/-!
Verification development for the experiment-tracking toolkit
(`experimentalist`): a shallow embedding of the reading/grouping/aggregation
engine (`reading/data_operations.py`, `reading/aggregation_maps.py`) and of
the run-directory allocator (`logging/logger.py`), together with theorems
settling the frozen behavioural claims about them.

Modelling conventions:
* Python dynamic values are embedded as the inductive `PyVal`
  (`None`, strings, numbers, `float('nan')`, lists).  Python/numpy floats
  are modelled as exact rationals; `nan` is a separate constructor.
* Python dictionaries are embedded as association lists in insertion order
  (`SDict`), with first-match lookup, in-place overwrite of existing keys
  and append of new keys, matching CPython dict semantics.
* Fallible code is embedded in `Except PyErr`; each `PyErr` constructor
  names the Python exception class the source would raise.
* `copy.deepcopy` is the identity on the pure model.
-/

namespace Mlxp

/-- Python exceptions that the embedded code paths can raise. -/
inductive PyErr where
  | keyError (key : String)
  | typeError
  | indexError
  | attributeError
  | unboundLocalError
  | assertionError
  | fileExistsError
  | invalidKeyError (msg : String)
  | invalidAggMapError (msg : String)
deriving DecidableEq

/-- Embedded Python values: `None`, strings, numbers (ints and finite floats,
as exact rationals), `float('nan')`, and lists. -/
inductive PyVal where
  | none
  | str (s : String)
  | num (q : Rat)
  | nan
  | list (l : List PyVal)

mutual

/-- Python `==` on embedded values (`nan == nan` is `False` in Python). -/
def PyVal.pyEq : PyVal → PyVal → Bool
  | .none, .none => true
  | .str a, .str b => a == b
  | .num a, .num b => a == b
  | .nan, .nan => false
  | .list a, .list b => PyVal.pyEqList a b
  | _, _ => false

/-- Elementwise Python `==` on embedded lists. -/
def PyVal.pyEqList : List PyVal → List PyVal → Bool
  | [], [] => true
  | x :: xs, y :: ys => PyVal.pyEq x y && PyVal.pyEqList xs ys
  | _, _ => false

end

/-- Is this value Python `None`? -/
def PyVal.isNone : PyVal → Bool
  | .none => true
  | _ => false

/-- Is this value a (finite) number or `nan`, i.e. something a numpy float
array can hold? -/
def PyVal.isNumOrNan : PyVal → Bool
  | .num _ => true
  | .nan => true
  | _ => false

/-- Is this value a Python `str`?  (The only shape `Config.getItem` routes
through the lazy machinery is the string sentinel.) -/
def PyVal.isStrVal : PyVal → Bool
  | .str _ => true
  | _ => false

/-- One-level rendering of list elements (an approximation of Python `repr`
inside `str(list)`; no claim depends on it). -/
def PyVal.pyStrShallow : PyVal → String
  | .none => "None"
  | .str s => s
  | .num q => if q.den = 1 then toString q.num else toString q
  | .nan => "nan"
  | .list _ => "[...]"

/-- Python `str(...)` of an embedded value (used for building group tuples).
The number rendering conflates `1` and `1.0`; the grouping theorems below do
not depend on the concrete rendering. -/
def PyVal.pyStr : PyVal → String
  | .none => "None"
  | .str s => s
  | .num q => if q.den = 1 then toString q.num else toString q
  | .nan => "nan"
  | .list l => "[" ++ String.intercalate ", " (l.map fun v => PyVal.pyStrShallow v) ++ "]"

/-- A Python `dict` with string keys, in insertion order. -/
abbrev SDict := List (String × PyVal)

/-- First-match association-list lookup (CPython dict lookup). -/
def assocLookup {α : Type} : List (String × α) → String → Option α
  | [], _ => Option.none
  | (k', v) :: rest, k => if k' = k then some v else assocLookup rest k

/-- Overwrite the value stored at an existing key, keeping its position
(CPython `d[k] = v` when `k` is already present; dict keys are unique, so
replacing the first occurrence is the CPython behaviour). -/
def assocSet {α : Type} : List (String × α) → String → α → List (String × α)
  | [], _, _ => []
  | (k', w) :: rest, k, v => if k' = k then (k, v) :: rest else (k', w) :: assocSet rest k v

/-- CPython `d.update(new)`: overwrite entries whose key already exists,
append the rest in order. -/
def assocUpdate {α : Type} (d new : List (String × α)) : List (String × α) :=
  new.foldl (fun acc p =>
    if (assocLookup acc p.1).isSome then assocSet acc p.1 p.2 else acc ++ [p]) d

theorem assocLookup_append_of_some {α : Type} (a b : List (String × α)) (k : String) (v : α)
    (h : assocLookup a k = some v) : assocLookup (a ++ b) k = some v := by
  induction a with
  | nil => simp [assocLookup] at h
  | cons p rest ih =>
      cases p with
      | mk k' w =>
          by_cases hk : k' = k
          · simp [assocLookup, hk] at h ⊢
            exact h
          · simp [assocLookup, hk] at h ⊢
            exact ih h

theorem assocLookup_append_of_none {α : Type} (a b : List (String × α)) (k : String)
    (h : assocLookup a k = Option.none) : assocLookup (a ++ b) k = assocLookup b k := by
  induction a with
  | nil => simp [assocLookup]
  | cons p rest ih =>
      cases p with
      | mk k' w =>
          by_cases hk : k' = k
          · simp [assocLookup, hk] at h
          · simp [assocLookup, hk] at h ⊢
            exact ih h

theorem assocLookup_set_self {α : Type} (d : List (String × α)) (k : String) (v : α)
    (h : (assocLookup d k).isSome) : assocLookup (assocSet d k v) k = some v := by
  induction d with
  | nil => simp [assocLookup] at h
  | cons p rest ih =>
      cases p with
      | mk k' w =>
          by_cases hk : k' = k
          · simp [assocSet, assocLookup, hk]
          · simp [assocLookup, hk] at h
            simp [assocSet, assocLookup, hk, ih h]

theorem assocLookup_set_ne {α : Type} (d : List (String × α)) (k k' : String) (v : α)
    (h : k' ≠ k) : assocLookup (assocSet d k v) k' = assocLookup d k' := by
  induction d with
  | nil => simp [assocSet]
  | cons p rest ih =>
      cases p with
      | mk k0 w =>
          by_cases hk : k0 = k
          · subst hk
            have hne : ¬ k0 = k' := fun hh => h hh.symm
            simp [assocSet, assocLookup, hne]
          · simp [assocSet, assocLookup, hk, ih]

/-! ### `LazyData` (`reading/data_operations.py`, lines 120-138)

A `LazyData` owns one backing `<file_name>.json` file.  The parsed content of
that file (what `_load_dict_from_json` would return: per-key sequences
accumulated from the newline-delimited JSON records) is modelled as the fixed
field `file`; `used_keys` and `_data` are the mutable state. -/
structure LazyData where
  file : SDict
  used_keys : List String
  data : Option SDict

/-- Python `set.add` on the modelled `used_keys` set (membership is all that
matters; sets are modelled as lists without duplicates). -/
def addUsed (used : List String) (k : String) : List String :=
  if k ∈ used then used else k :: used

/-- `LazyData.get_data`: if the cache is absent or the key was never touched,
reload the entire backing file into the cache and mark the key touched; then
index the cache (`KeyError` when the file has no such key). -/
def LazyData.get_data (ld : LazyData) (key : String) : Except PyErr (PyVal × LazyData) :=
  let ld' := if ld.data.isNone ∨ key ∉ ld.used_keys then
      { ld with data := some ld.file, used_keys := addUsed ld.used_keys key }
    else ld
  match assocLookup (ld'.data.getD []) key with
  | some v => .ok (v, ld')
  | Option.none => .error (.keyError key)

/-- `LazyData.free_unused`: drop every cached key that was never touched.
When the cache was never materialized, `self._data` is `None` and
`self._data.keys()` raises `AttributeError`. -/
def LazyData.free_unused (ld : LazyData) : Except PyErr LazyData :=
  match ld.data with
  | Option.none => .error .attributeError
  | some d => .ok { ld with data := some (d.filter fun p => decide (p.1 ∈ ld.used_keys)) }

/-! ### `Config` (`reading/data_operations.py`, lines 20-94) -/

/-- `Config`: one run's record.  `flattened` holds the eager values, with the
string sentinel `"LAZYDATA"` at keys backed by lazy streams; `lazydata_dict`
maps each stream name (the key part before the first dot) to its `LazyData`,
mirroring the wiring `_make_lazydict` installs in the `lazy` dict (each lazy
key resolves through `lazydata_dict[key.split('.')[0]].get_data`).  Note:
the source constructor at this commit writes `self.parend_dir` but reads
`self.parent_dir`, so `__init__` cannot in fact finish building a record
that has lazy keys; the claims are about the methods' behaviour on record
states, which we model directly. -/
structure Config where
  flattened : SDict
  lazydata_dict : List (String × LazyData)

/-- `key.split('.')[0]`: the stream name owning a dotted key. -/
def keyHead (key : String) : String := (key.splitOn ".").headD key

/-- `Config.__getitem__` via the `lazy` dict: an eager key returns its value;
a key whose flattened value is the `"LAZYDATA"` sentinel resolves through the
owning stream's `get_data` (possibly reloading the backing file). -/
def Config.getItem (c : Config) (key : String) : Except PyErr (PyVal × Config) :=
  match assocLookup c.flattened key with
  | Option.none => .error (.keyError key)
  | some v =>
    match v with
    | .str s =>
        if s = "LAZYDATA" then
          match assocLookup c.lazydata_dict (keyHead key) with
          | Option.none => .error (.keyError (keyHead key))
          | some ld =>
              match ld.get_data key with
              | .error e => .error e
              | .ok (v', ld') =>
                  .ok (v', { c with lazydata_dict := assocSet c.lazydata_dict (keyHead key) ld' })
        else .ok (.str s, c)
    | _ => .ok (v, c)

/-- `Config.update`: merge new key/value pairs into the record.  The source
updates both the `lazy` dict and the `flattened` dict; for non-callable
values (all aggregation outputs) both receive the value itself, so a single
dict suffices in the model. -/
def Config.update (c : Config) (new : SDict) : Config :=
  { c with flattened := assocUpdate c.flattened new }

/-- `Config.free_unused` iterates `free_unused` over all owned streams; the
first raised exception propagates. -/
def freeUnusedStreams : List (String × LazyData) → Except PyErr (List (String × LazyData))
  | [] => .ok []
  | (k, ld) :: rest =>
      match ld.free_unused with
      | .error e => .error e
      | .ok ld' =>
          match freeUnusedStreams rest with
          | .error e => .error e
          | .ok rest' => .ok ((k, ld') :: rest')

/-- `Config.free_unused` (`data_operations.py`, lines 92-94). -/
def Config.free_unused (c : Config) : Except PyErr Config :=
  match freeUnusedStreams c.lazydata_dict with
  | .error e => .error e
  | .ok l => .ok { c with lazydata_dict := l }

/-! ### `ConfigList.config_diff` (`reading/data_operations.py`, lines 218-249)

The diff logic only compares each record's key→value mapping, so it is
modelled on the records' mappings (`SDict`); lazy resolution, modelled by
`Config.getItem`, does not change which value a key denotes. -/

/-- Append a key to the accumulated diff list unless already present
(`if key not in diff_keys: diff_keys.append(key)`). -/
def appendIfNew (acc : List String) (k : String) : List String :=
  if k ∈ acc then acc else acc ++ [k]

/-- The inner loop of `config_diff`: scan one non-reference record's keys in
order (the iteration list is the record's own entry list).  A key present in
the reference record and starting with `start_key` is appended when the
values differ (`ref_dict[key] != config[key]`); any other key (absent from
the reference record, or not starting with `start_key`) falls into the
`else` branch and is appended unconditionally. -/
def diffScan (ref c : SDict) (start_key : String) :
    List (String × PyVal) → List String → List String
  | [], acc => acc
  | e :: es, acc =>
      let acc' :=
        match assocLookup ref e.1 with
        | some rv =>
            if e.1.startsWith start_key then
              if PyVal.pyEq rv ((assocLookup c e.1).getD .none) then acc
              else appendIfNew acc e.1
            else appendIfNew acc e.1
        | Option.none => appendIfNew acc e.1
      diffScan ref c start_key es acc'

/-- One non-reference record's contribution: iterate its own keys. -/
def configDiffInner (ref c : SDict) (start_key : String) (acc : List String) : List String :=
  diffScan ref c start_key c acc

/-- The outer loop of `config_diff` over the non-reference records. -/
def configDiffOuter (ref : SDict) (start_key : String) :
    List SDict → List String → List String
  | [], acc => acc
  | c :: cs, acc => configDiffOuter ref start_key cs (configDiffInner ref c start_key acc)

/-- `ConfigList.config_diff`: the first record becomes `ref_dict`; every later
record's keys are scanned by `configDiffInner`. -/
def config_diff (configs : List SDict) (start_key : String) : List String :=
  match configs with
  | [] => []
  | ref :: rest => configDiffOuter ref start_key rest []

/-! ### Grouping (`reading/data_operations.py`, lines 193-216, 390-431)

`_group_by` builds a nested dictionary (`collection_dict`) by repeatedly
calling `_add_nested_keys_val`; a nested-dict node maps strings either to a
sub-dictionary or to a list of `Config` (a leaf bucket).  This dynamic shape
is the inductive `NVal`. -/
inductive NVal where
  | dict (entries : List (String × NVal))
  | configs (cs : List Config)

/-- `_add_nested_keys_val(dictionary, keys, val)` (lines 416-430), on the
top-level nested dict.  Faithful rendering of the Python control flow:

* `keys = []`: the `for` loop never runs, so the trailing `parent[key] = ...`
  reads the unbound local `key` (`parent` is still `None`): the `dico + val`
  on the right side raises `TypeError` (dict + list), which is caught, and
  the fallback assignment `parent[key] = val` then raises
  `UnboundLocalError` when evaluating `key`.
* last key: a missing key is created as `{}` by the `except KeyError` arm;
  `{} + val` raises `TypeError`, caught, and the bucket becomes `val`.  An
  existing list bucket is extended (`dico + val`); an existing sub-dict is
  silently *overwritten* by `val` (again via the caught `TypeError`).
* inner key: a missing key is created as `{}` and descended into; descending
  into a list bucket (`dico[key]` with a string on a list) raises an
  uncaught `TypeError`. -/
def addNestedKeysVal (d : List (String × NVal)) :
    List String → List Config → Except PyErr (List (String × NVal))
  | [], _ => .error .unboundLocalError
  | [k], val =>
      match assocLookup d k with
      | Option.none => .ok (d ++ [(k, .configs val)])
      | some (.configs cs) => .ok (assocSet d k (.configs (cs ++ val)))
      | some (.dict _) => .ok (assocSet d k (.configs val))
  | k :: k2 :: rest, val =>
      match assocLookup d k with
      | Option.none =>
          match addNestedKeysVal [] (k2 :: rest) val with
          | .error e => .error e
          | .ok sub => .ok (d ++ [(k, .dict sub)])
      | some (.dict sub) =>
          match addNestedKeysVal sub (k2 :: rest) val with
          | .error e => .error e
          | .ok sub' => .ok (assocSet d k (.dict sub'))
      | some (.configs _) => .error .typeError

mutual

/-- The bucket stored in a nested dict under a full path (`[]` when the path
is absent or does not end at a list bucket).  Specification-side helper. -/
def pathRunsV : NVal → List String → List Config
  | .configs cs, [] => cs
  | .configs _, _ :: _ => []
  | .dict _, [] => []
  | .dict entries, k :: rest => pathRunsD entries k rest

/-- Entry-list worker for `pathRunsV`. -/
def pathRunsD : List (String × NVal) → String → List String → List Config
  | [], _, _ => []
  | (k', v) :: es, k, rest => if k' = k then pathRunsV v rest else pathRunsD es k rest

end

mutual

/-- `reduce(dict.get, key, collection_dict)` followed by `ConfigList(...)`
(line 407): walk the nested dict along a group-value tuple.  `dict.get` on a
non-dict raises `TypeError` (unbound-method descriptor applied to a list or
to `None`); `ConfigList(None)` also raises `TypeError` (not iterable); and
`ConfigList` of a still-nested dict trips the `isinstance(config, Config)`
assertion. -/
def reduceGetV : NVal → List String → Except PyErr (List Config)
  | .configs cs, [] => .ok cs
  | .dict _, [] => .error .assertionError
  | .dict entries, k :: rest => reduceGetD entries k rest
  | .configs _, _ :: _ => .error .typeError

/-- Entry-list worker for `reduceGetV`; a missing key yields Python `None`,
and both continuations from `None` (`dict.get(None, ...)` or
`ConfigList(None)`) raise `TypeError`. -/
def reduceGetD : List (String × NVal) → String → List String → Except PyErr (List Config)
  | [], _, _ => .error .typeError
  | (k', v) :: es, k, rest => if k' = k then reduceGetV v rest else reduceGetD es k rest

end

/-- `pkey_list = [config.flattened()[group_key] for group_key in keys]`
(lines 397-399); a key absent from this record's flattened dict raises
`KeyError`. -/
def pkeyList (c : Config) : List String → Except PyErr (List PyVal)
  | [] => .ok []
  | k :: ks =>
      match assocLookup c.flattened k with
      | Option.none => .error (.keyError k)
      | some v =>
          match pkeyList c ks with
          | .error e => .error e
          | .ok vs => .ok (v :: vs)

/-- `pkey_val = [str(pkey) for pkey in pkey_list if pkey is not None]`
(line 400). -/
def pkeyVal (vs : List PyVal) : List String :=
  (vs.filter fun v => !v.isNone).map PyVal.pyStr

/-- `group_vals.add(tuple(pkey_val))` on the modelled set: Python set
iteration order is unspecified, so the set is modelled as a list in first
insertion order; the theorems below are insensitive to that order. -/
def insertTuple (gv : List (List String)) (t : List String) : List (List String) :=
  if t ∈ gv then gv else gv ++ [t]

/-- The per-record loop of `_group_by` (lines 395-404). -/
def buildGroups : List Config → List String → List (String × NVal) → List (List String) →
    Except PyErr (List (String × NVal) × List (List String))
  | [], _, d, gv => .ok (d, gv)
  | c :: cs, keys, d, gv =>
      match pkeyList c keys with
      | .error e => .error e
      | .ok pl =>
          let t := pkeyVal pl
          match addNestedKeysVal d t [c] with
          | .error e => .error e
          | .ok d' => buildGroups cs keys d' (insertTuple gv t)

/-- `grouped_dict = {key: ConfigList(reduce(dict.get, key, collection_dict))
for key in group_vals}` (lines 407-408). -/
def collectGroups (cd : List (String × NVal)) :
    List (List String) → Except PyErr (List (List String × List Config))
  | [] => .ok []
  | t :: ts =>
      match reduceGetV (.dict cd) t with
      | .error e => .error e
      | .ok cs =>
          match collectGroups cd ts with
          | .error e => .error e
          | .ok r => .ok ((t, cs) :: r)

/-- `_group_by(config_dicts, list_group_keys)` (lines 390-410): returns the
grouped dictionary (tuple → list of records), the group-key tuple, and the
list of group-value tuples. -/
def groupByCore (config_dicts : List Config) (list_group_keys : List String) :
    Except PyErr (List (List String × List Config) × List String × List (List String)) :=
  match buildGroups config_dicts list_group_keys [] [] with
  | .error e => .error e
  | .ok (cd, gv) =>
      match collectGroups cd gv with
      | .error e => .error e
      | .ok gd => .ok (gd, list_group_keys, gv)

/-! ### Key validation (`groupBy`, lines 207-216; `_check_valid_key`,
lines 503-508)

`ConfigList.groupBy` calls `_check_valid_key(self.keys, key)`: it passes the
bound method `self.keys` itself, not the result of calling it.  Python's
membership test `key in valid_keys` then operates on a non-iterable bound
method and raises `TypeError` before the assertion can run. -/
inductive PyContainer where
  | strList (l : List String)
  | boundMethod

/-- Python `key in valid_keys` for the two container shapes that reach
`_check_valid_key`. -/
def pyContains (c : PyContainer) (key : String) : Except PyErr Bool :=
  match c with
  | .strList l => .ok (decide (key ∈ l))
  | .boundMethod => .error .typeError

/-- Rendering of `str(valid_keys)` for the error message. -/
def reprValidKeys : PyContainer → String
  | .strList l => "[" ++ String.intercalate ", " l ++ "]"
  | .boundMethod => "<bound method ConfigList.keys>"

/-- `_check_valid_key(valid_keys, key)`: assert membership, else raise
`InvalidKeyError` naming the key and the valid keys. -/
def checkValidKey (valid_keys : PyContainer) (key : String) : Except PyErr Unit :=
  match pyContains valid_keys key with
  | .error e => .error e
  | .ok true => .ok ()
  | .ok false =>
      .error (.invalidKeyError
        ("The provided key " ++ key ++ " is invalid! Valid keys are: " ++ reprValidKeys valid_keys))

/-- The validation loop of `groupBy` (lines 208-209), with the container the
source actually passes: the bound method `self.keys`. -/
def validateKeys : List String → Except PyErr Unit
  | [] => .ok ()
  | k :: rest =>
      match checkValidKey .boundMethod k with
      | .error e => .error e
      | .ok _ => validateKeys rest

/-- `GroupedConfigs` (lines 251-295), modelled with the three fields that
both construction sites (`groupBy` line 214 and `_aggregate` line 446) pass:
the grouped dictionary, the group keys and the group values.  (The written
`__init__` declares only two parameters, so those three-argument calls would
themselves raise `TypeError`; the structure models the record the call sites
intend to build.) -/
structure GroupedConfigs where
  grouped_dict : List (List String × List Config)
  group_keys : List String
  group_vals : List (List String)

/-- `ConfigList.groupBy(list_group_keys)` (lines 193-216): validate every key
(against the bound method, see above), then run `_group_by`. -/
def groupBy (cl : List Config) (list_group_keys : List String) : Except PyErr GroupedConfigs :=
  match validateKeys list_group_keys with
  | .error e => .error e
  | .ok _ =>
      match groupByCore cl list_group_keys with
      | .error e => .error e
      | .ok (gd, gk, gv) => .ok ⟨gd, gk, gv⟩

/-- `GroupedConfigs.toPandasDF` (lines 340-354) flattens all leaf collections
back into one table; the rows are the concatenation of the leaf buckets. -/
def flattenGroups (gd : List (List String × List Config)) : List Config :=
  (gd.map Prod.snd).flatten

/-- Specification-side total version of a record's group-value tuple (equal
to the code's tuple whenever every group key is present; `None` values are
filtered out exactly as in `pkey_val`). -/
def tupleOf (keys : List String) (c : Config) : List String :=
  pkeyVal (keys.map fun k => (assocLookup c.flattened k).getD .none)

/-! ### Aggregation maps (`reading/aggregation_maps.py`)

The four concrete reduction classes form a closed set, embedded as the
inductive `AggMap`.  numpy float arrays are modelled as lists of
number-or-`nan` values; genuinely non-numeric content (which would make
numpy build a string/object array and raise `TypeError` inside
`nanargmin`/`nanargmax` or at the subsequent list indexing) is mapped to
`TypeError`.  NaN *propagation* through `AvgStd` arithmetic lies outside the
rational model (no settled claim exercises it); a sequence containing NaN or
non-numeric entries is likewise mapped to `TypeError` there. -/
inductive AggMap where
  | last (key : String)
  | min (key : String)
  | max (key : String)
  | avgstd (key : String)

/-- `self.keys` of an aggregation map (all four classes pass `[key]`). -/
def AggMap.mapKeys : AggMap → List String
  | .last k => [k]
  | .min k => [k]
  | .max k => [k]
  | .avgstd k => [k]

/-- `self.map_name`. -/
def AggMap.mapName : AggMap → String
  | .last _ => "last"
  | .min _ => "min"
  | .max _ => "max"
  | .avgstd _ => "avgstd"

/-- `make_name`: `map_name + "(" + ",".join(keys) + ")"`. -/
def AggMap.name (m : AggMap) : String :=
  m.mapName ++ "(" ++ String.intercalate "," m.mapKeys ++ ")"

/-- Worker for `np.nanargmin`: scan with the current best (index, value);
NaN entries are skipped; a strict comparison keeps the first minimum. -/
def nanargminAux : List PyVal → Nat → Option (Nat × Rat) → Option (Nat × Rat)
  | [], _, best => best
  | v :: vs, i, best =>
      match v, best with
      | .num q, Option.none => nanargminAux vs (i + 1) (some (i, q))
      | .num q, some (j, b) => nanargminAux vs (i + 1) (if q < b then some (i, q) else some (j, b))
      | _, b => nanargminAux vs (i + 1) b

/-- `np.nanargmin` on a 1-D float array: index of the smallest non-NaN entry
(first occurrence); `none` models the `ValueError` on an all-NaN or empty
array, which `Min.apply` catches, leaving `index = -1`. -/
def nanargmin (l : List PyVal) : Option Nat :=
  (nanargminAux l 0 Option.none).map Prod.fst

/-- Worker for `np.nanargmax`, mirror image of `nanargminAux`. -/
def nanargmaxAux : List PyVal → Nat → Option (Nat × Rat) → Option (Nat × Rat)
  | [], _, best => best
  | v :: vs, i, best =>
      match v, best with
      | .num q, Option.none => nanargmaxAux vs (i + 1) (some (i, q))
      | .num q, some (j, b) => nanargmaxAux vs (i + 1) (if b < q then some (i, q) else some (j, b))
      | _, b => nanargmaxAux vs (i + 1) b

/-- `np.nanargmax` on a 1-D float array, conventions as in `nanargmin`. -/
def nanargmax (l : List PyVal) : Option Nat :=
  (nanargmaxAux l 0 Option.none).map Prod.fst

/-- Python list indexing with a possibly negative index
(`selected_data[index]`, `collection[index]`): negative indices count from
the end; out of range raises `IndexError`. -/
def pyIndex {α : Type} (l : List α) (i : Int) : Except PyErr α :=
  let j : Int := if i < 0 then i + l.length else i
  if h : 0 ≤ j ∧ j.toNat < l.length then .ok (l.get ⟨j.toNat, h.2⟩) else .error .indexError

/-- `selected_data = [d[self.keys[0]] for d in data]` (lines 49, 63): a run
missing the field raises `KeyError`. -/
def selectedData (k : String) : List SDict → Except PyErr (List PyVal)
  | [] => .ok []
  | d :: ds =>
      match assocLookup d k with
      | Option.none => .error (.keyError k)
      | some v =>
          match selectedData k ds with
          | .error e => .error e
          | .ok vs => .ok (v :: vs)

/-- `Min.apply` (lines 47-54). -/
def minApply (k : String) (data : List SDict) : Except PyErr (SDict × Option Int) :=
  match selectedData k data with
  | .error e => .error e
  | .ok sel =>
      if sel.all PyVal.isNumOrNan then
        let index : Int := match nanargmin sel with
          | some i => (i : Int)
          | Option.none => -1
        match pyIndex sel index with
        | .error e => .error e
        | .ok v => .ok ([("min(" ++ k ++ ")", v)], some index)
      else .error .typeError

/-- `Max.apply` (lines 61-68). -/
def maxApply (k : String) (data : List SDict) : Except PyErr (SDict × Option Int) :=
  match selectedData k data with
  | .error e => .error e
  | .ok sel =>
      if sel.all PyVal.isNumOrNan then
        let index : Int := match nanargmax sel with
          | some i => (i : Int)
          | Option.none => -1
        match pyIndex sel index with
        | .error e => .error e
        | .ok v => .ok ([("max(" ++ k ++ ")", v)], some index)
      else .error .typeError

/-- `Last.apply` (lines 33-40): `data[key][-1]` subscripts `data` — the
*list* of per-run value dicts handed over by `_aggregate_collection` — with
a string key, which raises `TypeError`; the handlers catch only `KeyError`
and `IndexError`.  (Its bare-dict return value would additionally break the
tuple unpacking `agg_val, index = agg_map.apply(val_array)` at line 462.) -/
def lastApply (_k : String) (_data : List SDict) : Except PyErr (SDict × Option Int) :=
  .error .typeError

/-- A sequence value as the list of rationals a numpy float array would hold
(`none` when the value is not a list of finite numbers). -/
def PyVal.asRatList : PyVal → Option (List Rat)
  | .list l =>
      l.foldr (fun v acc =>
        match v, acc with
        | .num q, some r => some (q :: r)
        | _, _ => Option.none) (some [])
  | _ => Option.none

/-- The per-field sequences of a leaf group:
`data = [{key: d[key] for key in self.keys} for d in data]` (line 76)
followed by reading the single key's sequence in `_compute_mean_and_std`. -/
def seqsOf (k : String) : List SDict → Except PyErr (List (List Rat))
  | [] => .ok []
  | d :: ds =>
      match assocLookup d k with
      | Option.none => .error (.keyError k)
      | some v =>
          match v.asRatList with
          | Option.none => .error .typeError
          | some seq =>
              match seqsOf k ds with
              | .error e => .error e
              | .ok r => .ok (seq :: r)

/-- Squaring, written with `*` so concrete evaluation reduces. -/
def sq (q : Rat) : Rat := q * q

/-- `np.sqrt` restricted to exact rational squares (every value the settled
claims evaluate is one); any non-square argument is mapped to `0`. -/
def ratSqrt (q : Rat) : Rat :=
  if 0 ≤ q.num ∧ Nat.sqrt q.num.toNat * Nat.sqrt q.num.toNat = q.num.toNat
      ∧ Nat.sqrt q.den * Nat.sqrt q.den = q.den then
    (Nat.sqrt q.num.toNat : Rat) / (Nat.sqrt q.den : Rat)
  else 0

/-- One iteration of the accumulation loop in `_compute_mean_and_std`
(lines 91-104): truncate the running sum and sum-of-squares arrays and the
new sequence to the shorter length, then add elementwise.  Starting from
zero arrays of the first sequence's length, this is also exactly the `i == 0`
iteration. -/
def accumStep (acc : List Rat × List Rat) (v : List Rat) : List Rat × List Rat :=
  let L := Nat.min acc.1.length v.length
  let w := v.take L
  (List.zipWith (· + ·) (acc.1.take L) w,
   List.zipWith (· + ·) (acc.2.take L) (w.map sq))

/-- `_compute_mean_and_std` (lines 81-111): the singleton branch returns the
sequence itself as mean with a zero std; otherwise the accumulation loop
runs, the sums are divided by the count, and the population-variance formula
`sum_sq/n - mean^2` is applied before the square root. -/
def computeMeanAndStd (seqs : List (List Rat)) : Except PyErr (List Rat × List Rat) :=
  match seqs with
  | [] => .error .indexError
  | [v] => .ok (v, List.replicate v.length 0)
  | v0 :: v1 :: rest =>
      let all := v0 :: v1 :: rest
      let init : List Rat × List Rat := (List.replicate v0.length 0, List.replicate v0.length 0)
      let s := all.foldl accumStep init
      let n : Rat := (all.length : Rat)
      let avg := s.1.map (· / n)
      let std := (List.zipWith (fun b a => b / n - sq a) s.2 avg).map ratSqrt
      .ok (avg, std)

/-- `AvgStd.apply` (lines 74-78): compute the curves and attach them under
`key_avg` / `key_std`, with no representative index. -/
def avgstdApply (k : String) (data : List SDict) : Except PyErr (SDict × Option Int) :=
  match seqsOf k data with
  | .error e => .error e
  | .ok seqs =>
      match computeMeanAndStd seqs with
      | .error e => .error e
      | .ok (avg, std) =>
          .ok ([(k ++ "_avg", .list (avg.map PyVal.num)),
                (k ++ "_std", .list (std.map PyVal.num))], Option.none)

/-- Dynamic dispatch of `apply` over the four map classes. -/
def AggMap.apply : AggMap → List SDict → Except PyErr (SDict × Option Int)
  | .last k, data => lastApply k data
  | .min k, data => minApply k data
  | .max k, data => maxApply k data
  | .avgstd k, data => avgstdApply k data

/-! ### `_aggregate_collection` and `aggregate`
(`reading/data_operations.py`, lines 356-374, 433-471, 510-515) -/

/-- `_extract_keys_from_maps` (lines 491-499): concatenate the maps' key
lists, keeping only first occurrences. -/
def extractKeysFromMaps (ms : List AggMap) : List String :=
  ms.foldl (fun acc m => acc ++ (m.mapKeys.filter fun k => decide (k ∉ acc))) []

/-- `data = {key: config_dict[key] for key in value_keys}` (line 457),
threading the record state through lazy reads. -/
def extractConfig (c : Config) : List String → Except PyErr (SDict × Config)
  | [] => .ok ([], c)
  | k :: ks =>
      match c.getItem k with
      | .error e => .error e
      | .ok (v, c') =>
          match extractConfig c' ks with
          | .error e => .error e
          | .ok (d, c'') => .ok ((k, v) :: d, c'')

/-- The first loop of `_aggregate_collection` (lines 455-459): extract each
record's requested fields, then immediately `free_unused` that record. -/
def extractLoop : List Config → List String → Except PyErr (List SDict × List Config)
  | [], _ => .ok ([], [])
  | c :: cs, value_keys =>
      match extractConfig c value_keys with
      | .error e => .error e
      | .ok (d, c') =>
          match c'.free_unused with
          | .error e => .error e
          | .ok c'' =>
              match extractLoop cs value_keys with
              | .error e => .error e
              | .ok (ds, cs') => .ok (d :: ds, c'' :: cs')

/-- The second loop of `_aggregate_collection` (lines 461-469): apply each
map; an index selects the single representative record
(`ConfigList([deepcopy(collection[index])])`), `None` keeps the whole
(deep-copied) collection; every record of the new collection is updated with
the aggregate values. -/
def applyMaps (collection : List Config) (val_array : List SDict) :
    List AggMap → Except PyErr (List (String × List Config))
  | [] => .ok []
  | m :: ms =>
      match m.apply val_array with
      | .error e => .error e
      | .ok (agg_val, idx) =>
          match (match idx with
                 | some i =>
                     match pyIndex collection i with
                     | .error e => .error e
                     | .ok c => .ok [c]
                 | Option.none => .ok collection : Except PyErr (List Config)) with
          | .error e => .error e
          | .ok new_collection =>
              let updated := new_collection.map fun c => c.update agg_val
              match applyMaps collection val_array ms with
              | .error e => .error e
              | .ok r => .ok ((m.name, updated) :: r)

/-- `_aggregate_collection(collection, agg_maps)` (lines 451-471). -/
def aggregateCollection (collection : List Config) (agg_maps : List AggMap) :
    Except PyErr (List (String × List Config)) :=
  let value_keys := extractKeysFromMaps agg_maps
  match extractLoop collection value_keys with
  | .error e => .error e
  | .ok (val_array, collection') => applyMaps collection' val_array agg_maps

/-- The argument list of `GroupedConfigs.aggregate`: a genuine aggregation
map, or an arbitrary object (carrying its `str(...)` rendering) that is not
an instance of an `AggregationMap` subclass. -/
inductive AggArg where
  | map (m : AggMap)
  | notAMap (objRepr : String)

/-- `str(AggregationMap)`. -/
def aggregationMapClassRepr : String :=
  "<class 'experimentalist.reading.aggregation_maps.AggregationMap'>"

/-- `_assert_valid_map` (lines 510-515): raise `InvalidAggregationMapError`
naming the offending object and the required base class.  (The source
message has two spaces before the class name.) -/
def assertValidMap : AggArg → Except PyErr Unit
  | .map _ => .ok ()
  | .notAMap r =>
      .error (.invalidAggMapError
        ("The map " ++ r ++ " must be an instance of a child class of  " ++ aggregationMapClassRepr))

/-- The validation loop of `aggregate` (lines 371-372). -/
def validateMaps : List AggArg → Except PyErr Unit
  | [] => .ok ()
  | a :: rest =>
      match assertValidMap a with
      | .error e => .error e
      | .ok _ => validateMaps rest

/-- The map payloads of an argument list; after successful validation every
element is a map, so this is the identity on payloads. -/
def argPayloads (l : List AggArg) : List AggMap :=
  l.filterMap fun a =>
    match a with
    | .map m => some m
    | .notAMap _ => Option.none

/-- `agg_config_dict = {agg_map.name: {} for agg_map in aggregation_maps}`
(line 437). -/
def initAggDict (maps : List AggMap) : List (String × List (String × NVal)) :=
  maps.foldl (fun acc m =>
    if (assocLookup acc m.name).isSome then acc else acc ++ [(m.name, [])]) []

/-- The inner loop of `_aggregate` (lines 442-443): nest this leaf's
aggregated collection under the group-value tuple, in each map's dict. -/
def addAllMaps : List AggMap → List String → List (String × List Config) →
    List (String × List (String × NVal)) → Except PyErr (List (String × List (String × NVal)))
  | [], _, _, acc => .ok acc
  | m :: ms, keys, agg_config, acc =>
      let cur := (assocLookup acc m.name).getD []
      match addNestedKeysVal cur keys ((assocLookup agg_config m.name).getD []) with
      | .error e => .error e
      | .ok nd => addAllMaps ms keys agg_config (assocSet acc m.name nd)

/-- The outer loop of `_aggregate` (lines 438-443). -/
def aggLoop (maps : List AggMap) :
    List (List String × List Config) → List (String × List (String × NVal)) →
    Except PyErr (List (String × List (String × NVal)))
  | [], acc => .ok acc
  | (keys, config_list) :: rest, acc =>
      match aggregateCollection config_list maps with
      | .error e => .error e
      | .ok agg_config =>
          match addAllMaps maps keys agg_config acc with
          | .error e => .error e
          | .ok acc' => aggLoop maps rest acc'

/-- The per-map result of `_aggregate` (lines 446-448): a nested dict plus
the unchanged grouping hierarchy, modelled with the three arguments both
`GroupedConfigs(...)` call sites pass. -/
structure AggGrouped where
  nested_dict : List (String × NVal)
  group_keys : List String
  group_vals : List (List String)

/-- `_aggregate(groupedconfigs, aggregation_maps)` (lines 433-448). -/
def aggregateValidated (g : GroupedConfigs) (maps : List AggMap) :
    Except PyErr (List (String × AggGrouped)) :=
  match aggLoop maps g.grouped_dict (initAggDict maps) with
  | .error e => .error e
  | .ok final =>
      .ok (maps.map fun m =>
        (m.name, ⟨(assocLookup final m.name).getD [], g.group_keys, g.group_vals⟩))

/-- `GroupedConfigs.aggregate(aggregation_maps)` (lines 356-374): validate
every argument first, then run `_aggregate`. -/
def aggregate (g : GroupedConfigs) (aggregation_maps : List AggArg) :
    Except PyErr (List (String × AggGrouped)) :=
  match validateMaps aggregation_maps with
  | .error e => .error e
  | .ok _ => aggregateValidated g (argPayloads aggregation_maps)

/-! ### Run-directory allocation (`logging/logger.py`, lines 309-341)

The relevant filesystem state is the list of names of `root`'s immediate
subdirectories (the `os.path.isdir` filter applied to `os.listdir`);
creating a run directory prepends its decimal name to the listing. -/

/-- Python `int(d)` on a digit string: decimal parse. -/
def parseNat (s : String) : Nat :=
  s.data.foldl (fun a c => a * 10 + (c.toNat - 48)) 0

/-- Python `str.isdigit`: true on nonempty all-digit strings. -/
def isDigits (s : String) : Bool :=
  !s.data.isEmpty && s.data.all Char.isDigit

/-- `_maximum_existing_run_id(root)` (lines 332-341): the maximum over the
integer values of the digit-named subdirectories, `0` when there are none
(the `max(...) if dir_nrs else 0` of the source equals a `max`-fold from
`0` over naturals). -/
def maximumExistingRunId (entries : List String) : Nat :=
  ((entries.filter isDigits).map parseNat).foldl Nat.max 0

/-- Python `str(_id)`: decimal rendering, most significant digit first. -/
def toDecimal (n : Nat) : String :=
  ⟨((Nat.digits 10 n).map Nat.digitChar).reverse⟩

/-- The allocation loop of `_make_run_dir` with an unset id (lines 311-325):
compute `max + 1` and `os.mkdir` it; a `FileExistsError` (the directory
already exists) retries after a jittered sleep, giving up after 1000
failures.  The fuel models the bounded retry budget; sequentially the first
attempt always succeeds (proved below). -/
def makeRunDirLoop : Nat → List String → Except PyErr (Nat × List String)
  | 0, _ => .error .fileExistsError
  | fuel + 1, entries =>
      let i := maximumExistingRunId entries + 1
      if toDecimal i ∈ entries then makeRunDirLoop fuel entries
      else .ok (i, toDecimal i :: entries)

/-- `_make_run_dir(None, root)` (lines 309-329), unset-id branch. -/
def makeRunDir (entries : List String) : Except PyErr (Nat × List String) :=
  makeRunDirLoop 1001 entries

/-- `N` successive allocations against the same root. -/
def allocRuns : Nat → List String → List Nat × List String
  | 0, entries => ([], entries)
  | n + 1, entries =>
      match makeRunDir entries with
      | .error _ => ([], entries)
      | .ok (i, entries') =>
          let r := allocRuns n entries'
          (i :: r.1, r.2)

theorem digitChar_toNat_sub (d : Nat) (h : d < 10) : (Nat.digitChar d).toNat - 48 = d := by
  interval_cases d <;> rfl

theorem digitChar_isDigit (d : Nat) (h : d < 10) : (Nat.digitChar d).isDigit = true := by
  interval_cases d <;> rfl

theorem foldl_digit_chars (L : List Nat) (hL : ∀ d ∈ L, d < 10) (a : Nat) :
    ((L.map Nat.digitChar).reverse.foldl (fun x c => x * 10 + (c.toNat - 48)) a) =
      a * 10 ^ L.length + Nat.ofDigits 10 L := by
  induction L generalizing a with
  | nil => simp [Nat.ofDigits]
  | cons d rest ih =>
      have hd : d < 10 := hL d (by simp)
      have hrest : ∀ x ∈ rest, x < 10 := fun x hx => hL x (by simp [hx])
      simp only [List.map_cons, List.reverse_cons, List.foldl_append, List.foldl_cons,
        List.foldl_nil, ih hrest a, digitChar_toNat_sub d hd, List.length_cons,
        Nat.ofDigits_cons]
      ring

theorem parseNat_toDecimal (n : Nat) : parseNat (toDecimal n) = n := by
  have h10 : (1 : Nat) < 10 := by norm_num
  have hlt : ∀ d ∈ Nat.digits 10 n, d < 10 := fun d hd => Nat.digits_lt_base h10 hd
  have := foldl_digit_chars (Nat.digits 10 n) hlt 0
  simpa [parseNat, toDecimal, Nat.ofDigits_digits] using this

theorem isDigits_toDecimal (n : Nat) (h : n ≠ 0) : isDigits (toDecimal n) = true := by
  have h10 : (1 : Nat) < 10 := by norm_num
  have hne : Nat.digits 10 n ≠ [] := Nat.digits_ne_nil_iff_ne_zero.2 h
  have hlt : ∀ d ∈ Nat.digits 10 n, d < 10 := fun d hd => Nat.digits_lt_base h10 hd
  have hdata : (toDecimal n).data = ((Nat.digits 10 n).map Nat.digitChar).reverse := rfl
  rw [isDigits, hdata, Bool.and_eq_true]
  constructor
  · cases hrev : ((Nat.digits 10 n).map Nat.digitChar).reverse with
    | nil =>
        exfalso
        apply hne
        have hmapnil : (Nat.digits 10 n).map Nat.digitChar = [] := by
          have := congrArg List.reverse hrev
          simpa using this
        exact List.map_eq_nil_iff.mp hmapnil
    | cons c cs => rfl
  · rw [List.all_eq_true]
    intro c hc
    rw [List.mem_reverse] at hc
    obtain ⟨d, hdm, rfl⟩ := List.mem_map.mp hc
    exact digitChar_isDigit d (hlt d hdm)

theorem foldl_max_eq_max (l : List Nat) (a : Nat) :
    l.foldl max a = max a (l.foldl max 0) := by
  induction l generalizing a with
  | nil => simp
  | cons x xs ih =>
      simp only [List.foldl_cons]
      rw [ih (max a x), ih (max 0 x)]
      simp [max_assoc, Nat.zero_max]

theorem mem_le_foldl_max (l : List Nat) (x : Nat) (hx : x ∈ l) : x ≤ l.foldl max 0 := by
  induction l with
  | nil => cases hx
  | cons y ys ih =>
      rw [List.foldl_cons, foldl_max_eq_max, Nat.zero_max]
      rcases List.mem_cons.mp hx with h | h
      · subst h
        exact Nat.le_max_left _ _
      · exact le_trans (ih h) (Nat.le_max_right _ _)

theorem foldl_max_mem_or_zero (l : List Nat) :
    l.foldl max 0 = 0 ∨ l.foldl max 0 ∈ l := by
  induction l with
  | nil => left; rfl
  | cons y ys ih =>
      rw [List.foldl_cons, foldl_max_eq_max, Nat.zero_max]
      rcases max_choice y (ys.foldl max 0) with h | h
      · right
        rw [h]
        simp
      · rw [h]
        rcases ih with h0 | hm
        · left; exact h0
        · right; simp [hm]

theorem parseNat_le_maxid (entries : List String) (s : String) (hs : s ∈ entries)
    (hd : isDigits s = true) : parseNat s ≤ maximumExistingRunId entries := by
  apply mem_le_foldl_max
  exact List.mem_map_of_mem parseNat (List.mem_filter.mpr ⟨hs, hd⟩)

theorem toDecimal_succ_not_mem (entries : List String) :
    toDecimal (maximumExistingRunId entries + 1) ∉ entries := by
  intro hmem
  have hd := isDigits_toDecimal (maximumExistingRunId entries + 1) (Nat.succ_ne_zero _)
  have hle := parseNat_le_maxid entries _ hmem hd
  rw [parseNat_toDecimal] at hle
  exact Nat.not_succ_le_self _ hle

theorem makeRunDirLoop_step (fuel : Nat) (entries : List String)
    (h : toDecimal (maximumExistingRunId entries + 1) ∉ entries) :
    makeRunDirLoop (fuel + 1) entries = .ok (maximumExistingRunId entries + 1,
      toDecimal (maximumExistingRunId entries + 1) :: entries) := by
  simp [makeRunDirLoop, h]

theorem makeRunDir_eq (entries : List String) :
    makeRunDir entries = .ok (maximumExistingRunId entries + 1,
      toDecimal (maximumExistingRunId entries + 1) :: entries) := by
  show makeRunDirLoop (1000 + 1) entries = _
  exact makeRunDirLoop_step 1000 entries (toDecimal_succ_not_mem entries)

theorem maxid_cons_toDecimal (k : Nat) (entries : List String) (hk : k ≠ 0) :
    maximumExistingRunId (toDecimal k :: entries) =
      max k (maximumExistingRunId entries) := by
  rw [maximumExistingRunId, List.filter_cons]
  rw [if_pos (by simp [isDigits_toDecimal k hk])]
  rw [List.map_cons, List.foldl_cons, foldl_max_eq_max, parseNat_toDecimal]
  have h0 : Nat.max 0 k = k := Nat.max_eq_right (Nat.zero_le k)
  rw [h0]
  rfl

theorem allocRuns_ids (N : Nat) (entries : List String) :
    (allocRuns N entries).1 =
      (List.range N).map (fun j => maximumExistingRunId entries + 1 + j) := by
  induction N generalizing entries with
  | zero => simp [allocRuns]
  | succ n ih =>
      rw [allocRuns, makeRunDir_eq]
      have hm : maximumExistingRunId
          (toDecimal (maximumExistingRunId entries + 1) :: entries) =
          maximumExistingRunId entries + 1 := by
        rw [maxid_cons_toDecimal _ entries (Nat.succ_ne_zero _)]
        exact max_eq_left (Nat.le_succ _)
      simp only [ih, hm, List.range_succ_eq_map, List.map_cons, List.map_map]
      have htail : List.map (fun j => maximumExistingRunId entries + 1 + 1 + j) (List.range n) =
          List.map ((fun j => maximumExistingRunId entries + 1 + j) ∘ Nat.succ) (List.range n) := by
        apply List.map_congr_left
        intro x hx
        simp only [Function.comp_apply]
        omega
      rw [htail]

/-! ## Claim theorems -/

/-- C7: for every root whose pure-digit-named immediate subdirectories
denote the id set `S`, allocating a run id with no requested id returns
`max(S) + 1` (`maximumExistingRunId` is proved to be exactly that maximum,
with the maximum of the empty set taken as `0`) and creates that directory;
and `N` successive allocations from the same root return the consecutive
ids `max(S)+1, …, max(S)+N`, with no gaps or repeats. -/
theorem c7_run_id_allocation (entries : List String) :
    (makeRunDir entries =
        .ok (maximumExistingRunId entries + 1,
          toDecimal (maximumExistingRunId entries + 1) :: entries))
    ∧ maximumExistingRunId [] = 0
    ∧ (∀ s ∈ entries, isDigits s = true → parseNat s ≤ maximumExistingRunId entries)
    ∧ (maximumExistingRunId entries = 0 ∨
        ∃ s ∈ entries, isDigits s = true ∧ parseNat s = maximumExistingRunId entries)
    ∧ ∀ N : Nat, (allocRuns N entries).1 =
        (List.range N).map (fun j => maximumExistingRunId entries + 1 + j) := by
  refine ⟨makeRunDir_eq entries, rfl, ?_, ?_, fun N => allocRuns_ids N entries⟩
  · intro s hs hd
    exact parseNat_le_maxid entries s hs hd
  · rcases foldl_max_mem_or_zero ((entries.filter isDigits).map parseNat) with h0 | hmem
    · left
      exact h0
    · right
      obtain ⟨s, hsf, hp⟩ := List.mem_map.mp hmem
      obtain ⟨hs, hd⟩ := List.mem_filter.mp hsf
      exact ⟨s, hs, hd, hp⟩

/-- C4 (code bug): `groupBy` passes the bound method `self.keys` — not the
result of calling it — to `_check_valid_key`, so the membership test
`key in valid_keys` raises `TypeError` for *every* key list with at least
one key, valid or not; the documented `InvalidKeyError` is unreachable from
`groupBy`.  The last conjunct shows the callee itself implements the
documented behaviour when handed an actual list of column names: the slip
is at the call site. -/
theorem c4_groupby_validation (cl : List Config) (k : String) (ks : List String) :
    groupBy cl (k :: ks) = .error .typeError
    ∧ (∀ msg, groupBy cl (k :: ks) ≠ .error (.invalidKeyError msg))
    ∧ ∀ (keys : List String) (key : String),
        checkValidKey (.strList keys) key =
          (if key ∈ keys then .ok () else
            .error (.invalidKeyError
              ("The provided key " ++ key ++ " is invalid! Valid keys are: "
                ++ reprValidKeys (.strList keys)))) := by
  refine ⟨rfl, ?_, ?_⟩
  · intro msg h
    simp [groupBy, validateKeys, checkValidKey, pyContains] at h
  · intro keys key
    by_cases hmem : key ∈ keys
    · simp [checkValidKey, pyContains, hmem]
    · simp [checkValidKey, pyContains, hmem]

/-- C9 (code bug): `Last.apply` subscripts `data` — the *list* of per-run
value dicts — with a string key, raising an uncaught `TypeError` for every
input, so a `Last` map aborts aggregation instead of contributing the final
element (or an empty contribution) per run.  The last conjunct evaluates the
full `_aggregate_collection` pipeline at a concrete one-run leaf group whose
field is present and nonempty: the result is the `TypeError`, not an
aggregated collection. -/
theorem c9_last_map_type_error (k : String) (data : List SDict) :
    lastApply k data = .error .typeError
    ∧ AggMap.apply (.last k) data = .error .typeError
    ∧ aggregateCollection
        [⟨[("metrics.loss", .list [.num 1, .num 2])], []⟩] [.last "metrics.loss"]
        = .error .typeError := by
  exact ⟨rfl, rfl, rfl⟩

/-- Message built by `_assert_valid_map` for a non-map object. -/
def invalidMapMsg (r : String) : String :=
  "The map " ++ r ++ " must be an instance of a child class of  " ++ aggregationMapClassRepr

theorem validateMaps_append_bad (pre post : List AggArg) (r : String)
    (hpre : ∀ a ∈ pre, assertValidMap a = .ok ()) :
    validateMaps (pre ++ .notAMap r :: post) = .error (.invalidAggMapError (invalidMapMsg r)) := by
  induction pre with
  | nil => rfl
  | cons a rest ih =>
      have ha : assertValidMap a = .ok () := hpre a (by simp)
      have hrest : ∀ x ∈ rest, assertValidMap x = .ok () := fun x hx => hpre x (by simp [hx])
      rw [List.cons_append]
      show (match assertValidMap a with
            | Except.error e => Except.error e
            | Except.ok _ => validateMaps (rest ++ AggArg.notAMap r :: post)) = _
      rw [ha]
      exact ih hrest

/-- C6: aggregating with an argument list containing an object that is not an
instance of an `AggregationMap` subclass raises `InvalidAggregationMapError`
naming the offending object and the required base class; the error is
produced by the validation loop alone — the grouped collection `g` is
universally quantified and untouched, so no leaf data is read and no file
I/O occurs before the error. -/
theorem c6_aggregate_invalid_map (g : GroupedConfigs) (pre post : List AggArg) (r : String)
    (hpre : ∀ a ∈ pre, assertValidMap a = .ok ()) :
    aggregate g (pre ++ .notAMap r :: post) =
      .error (.invalidAggMapError (invalidMapMsg r)) := by
  rw [aggregate, validateMaps_append_bad pre post r hpre]

/-- Witness for C6 at a concrete input: one valid `Min` map followed by the
invalid object `1` (whose `str(...)` is `"1"`), against a one-group
collection. -/
theorem c6_aggregate_invalid_map_witness :
    aggregate ⟨[([""], [])], [""], [[""]]⟩ [.map (.min "metrics.loss"), .notAMap "1"] =
      .error (.invalidAggMapError (invalidMapMsg "1")) := by
  exact c6_aggregate_invalid_map ⟨[([""], [])], [""], [[""]]⟩ [.map (.min "metrics.loss")] [] "1"
    (by intro a ha; rw [List.mem_singleton] at ha; subst ha; rfl)

theorem assocLookup_filter_mem (d : SDict) (used : List String) (k : String) :
    assocLookup (d.filter fun p => decide (p.1 ∈ used)) k =
      (if k ∈ used then assocLookup d k else Option.none) := by
  induction d with
  | nil => simp [assocLookup]
  | cons p rest ih =>
      cases p with
      | mk k' v =>
          by_cases hk : k' = k
          · subst hk
            by_cases hu : k' ∈ used
            · simp [List.filter_cons, hu, assocLookup, ih]
            · simp [List.filter_cons, hu, assocLookup, ih]
          · by_cases hu : k' ∈ used
            · simp [List.filter_cons, hu, assocLookup, hk, ih]
            · simp [List.filter_cons, hu, assocLookup, hk, ih]

/-- C5: on a `LazyData` whose cache is materialized, `free_unused` keeps
exactly the touched keys (every touched key keeps its cached value, every
untouched key is dropped), and a subsequent `get_data` on an untouched —
hence just-evicted — key reloads the *entire* backing file and returns that
key's value instead of raising a key error. -/
theorem c5_free_unused_reload (file d : SDict) (used : List String) (va : PyVal)
    (ha : assocLookup file "acc" = some va) (hacc : "acc" ∉ used) :
    ∃ d', LazyData.free_unused ⟨file, used, some d⟩ = .ok ⟨file, used, some d'⟩
      ∧ (∀ k, k ∈ used → assocLookup d' k = assocLookup d k)
      ∧ (∀ k, k ∉ used → assocLookup d' k = Option.none)
      ∧ LazyData.get_data ⟨file, used, some d'⟩ "acc" =
          .ok (va, ⟨file, addUsed used "acc", some file⟩) := by
  refine ⟨d.filter fun p => decide (p.1 ∈ used), rfl, ?_, ?_, ?_⟩
  · intro k hk
    rw [assocLookup_filter_mem, if_pos hk]
  · intro k hk
    rw [assocLookup_filter_mem, if_neg hk]
  · rw [LazyData.get_data]
    simp only [if_pos (Or.inr hacc), Option.getD_some, ha]

/-- Witness for C5 at the claim's concrete instance: cached keys
`{"loss", "acc"}` with only `"loss"` touched. -/
theorem c5_free_unused_reload_witness :
    ∃ d', LazyData.free_unused
        ⟨[("loss", .num 1), ("acc", .num 2)], ["loss"],
          some [("loss", .num 1), ("acc", .num 2)]⟩ = .ok
        ⟨[("loss", .num 1), ("acc", .num 2)], ["loss"], some d'⟩
      ∧ (∀ k, k ∈ ["loss"] → assocLookup d' k =
          assocLookup [("loss", PyVal.num 1), ("acc", PyVal.num 2)] k)
      ∧ (∀ k, k ∉ ["loss"] → assocLookup d' k = Option.none)
      ∧ LazyData.get_data
          ⟨[("loss", .num 1), ("acc", .num 2)], ["loss"], some d'⟩ "acc" =
          .ok (.num 2, ⟨[("loss", .num 1), ("acc", .num 2)], addUsed ["loss"] "acc",
            some [("loss", .num 1), ("acc", .num 2)]⟩) := by
  exact c5_free_unused_reload [("loss", .num 1), ("acc", .num 2)]
    [("loss", .num 1), ("acc", .num 2)] ["loss"] (.num 2) rfl (by decide)

theorem assocLookup_mem {α : Type} (l : List (String × α)) (k : String) (v : α)
    (h : assocLookup l k = some v) : (k, v) ∈ l := by
  induction l with
  | nil => simp [assocLookup] at h
  | cons p rest ih =>
      cases p with
      | mk k' w =>
          by_cases hk : k' = k
          · subst hk
            simp [assocLookup] at h
            simp [h]
          · simp [assocLookup, hk] at h
            simp [ih h]

theorem freeUnusedStreams_ok_all (l l' : List (String × LazyData))
    (h : freeUnusedStreams l = .ok l') : ∀ pr ∈ l, pr.2.data ≠ Option.none := by
  induction l generalizing l' with
  | nil => simp
  | cons p rest ih =>
      cases p with
      | mk k ld =>
          intro pr hpr
          cases hf : ld.free_unused with
          | error e => simp [freeUnusedStreams, hf] at h
          | ok ld2 =>
              cases hr : freeUnusedStreams rest with
              | error e => simp [freeUnusedStreams, hf, hr] at h
              | ok rest' =>
                  rcases List.mem_cons.mp hpr with hh | hh
                  · subst hh
                    show ld.data ≠ Option.none
                    intro hnone
                    rw [LazyData.free_unused] at hf
                    simp only [hnone] at hf
                    cases hf
                  · exact ih rest' hr pr hh

theorem freeUnusedStreams_err_attr (l : List (String × LazyData)) (e : PyErr)
    (h : freeUnusedStreams l = .error e) : e = .attributeError := by
  induction l generalizing e with
  | nil => simp [freeUnusedStreams] at h
  | cons p rest ih =>
      cases p with
      | mk k ld =>
          cases hf : ld.free_unused with
          | error e2 =>
              simp [freeUnusedStreams, hf] at h
              have h2 : e2 = PyErr.attributeError := by
                rw [LazyData.free_unused] at hf
                cases hnd : ld.data with
                | none =>
                    simp only [hnd] at hf
                    injection hf with h3
                    exact h3.symm
                | some d =>
                    simp only [hnd] at hf
                    cases hf
              rw [← h, h2]
          | ok ld2 =>
              cases hr : freeUnusedStreams rest with
              | error e2 =>
                  simp [freeUnusedStreams, hf, hr] at h
                  rw [← h]
                  exact ih e2 hr
              | ok rest' => simp [freeUnusedStreams, hf, hr] at h

theorem config_free_unused_err (c : Config) (p : String) (ld : LazyData)
    (hp : assocLookup c.lazydata_dict p = some ld) (hld : ld.data = Option.none) :
    Config.free_unused c = .error .attributeError := by
  have hmem := assocLookup_mem _ _ _ hp
  cases hres : freeUnusedStreams c.lazydata_dict with
  | ok l' => exact absurd hld (freeUnusedStreams_ok_all _ _ hres (p, ld) hmem)
  | error e =>
      rw [Config.free_unused]
      simp only [hres]
      rw [freeUnusedStreams_err_attr _ _ hres]

theorem getItem_effect (c : Config) (k : String) (v : PyVal) (c1 : Config) (q : String)
    (h : c.getItem k = .ok (v, c1)) :
    c1.flattened = c.flattened ∧
      (¬(keyHead k = q ∧ assocLookup c.flattened k = some (.str "LAZYDATA")) →
        assocLookup c1.lazydata_dict q = assocLookup c.lazydata_dict q) := by
  rw [Config.getItem] at h
  cases hl : assocLookup c.flattened k with
  | none =>
      simp only [hl] at h
      exact Except.noConfusion h
  | some v0 =>
      simp only [hl] at h
      split at h
      · -- the `.str s` arm of the match on the looked-up value
        rename_i s
        split at h
        · -- sentinel value: the lazy route
          rename_i hs
          cases hld : assocLookup c.lazydata_dict (keyHead k) with
          | none =>
              simp only [hld] at h
              exact Except.noConfusion h
          | some ld =>
              simp only [hld] at h
              cases hgd : ld.get_data k with
              | error e =>
                  simp only [hgd] at h
                  exact Except.noConfusion h
              | ok pr =>
                  obtain ⟨v2, ld2⟩ := pr
                  simp only [hgd] at h
                  injection h with h1
                  have hc1 : c1 = { c with
                      lazydata_dict := assocSet c.lazydata_dict (keyHead k) ld2 } :=
                    (congrArg Prod.snd h1).symm
                  subst hc1
                  refine ⟨rfl, ?_⟩
                  intro hn
                  have hkq : keyHead k ≠ q := by
                    intro he
                    exact hn ⟨he, by rw [hs]⟩
                  exact assocLookup_set_ne c.lazydata_dict (keyHead k) q ld2
                    (fun hh => hkq hh.symm)
        · -- a plain string value stays eager
          injection h with h1
          have hc1 : c1 = c := (congrArg Prod.snd h1).symm
          subst hc1
          exact ⟨rfl, fun _ => rfl⟩
      · -- any non-string value stays eager
        injection h with h1
        have hc1 : c1 = c := (congrArg Prod.snd h1).symm
        subst hc1
        exact ⟨rfl, fun _ => rfl⟩

theorem extractConfig_preserves (ks : List String) (c : Config) (d : SDict) (c' : Config)
    (q : String) (h : extractConfig c ks = .ok (d, c'))
    (hq : ∀ k ∈ ks, ¬(keyHead k = q ∧ assocLookup c.flattened k = some (.str "LAZYDATA"))) :
    assocLookup c'.lazydata_dict q = assocLookup c.lazydata_dict q := by
  induction ks generalizing c d c' with
  | nil =>
      simp only [extractConfig] at h
      injection h with h1
      have hc1 : c' = c := congrArg Prod.snd h1 |>.symm
      rw [hc1]
  | cons k ks ih =>
      simp only [extractConfig] at h
      cases hg : c.getItem k with
      | error e =>
          simp only [hg] at h
          exact Except.noConfusion h
      | ok pr =>
          obtain ⟨v, c1⟩ := pr
          simp only [hg] at h
          cases he : extractConfig c1 ks with
          | error e =>
              simp only [he] at h
              exact Except.noConfusion h
          | ok pr2 =>
              obtain ⟨d2, c2⟩ := pr2
              simp only [he] at h
              injection h with h1
              have hc2 : c' = c2 := congrArg Prod.snd h1 |>.symm
              have heff := getItem_effect c k v c1 q hg
              have hq' : ∀ k2 ∈ ks,
                  ¬(keyHead k2 = q ∧ assocLookup c1.flattened k2 = some (.str "LAZYDATA")) := by
                intro k2 hk2
                rw [heff.1]
                exact hq k2 (by simp [hk2])
              rw [hc2, ih c1 d2 c2 he hq', heff.2 (hq k (by simp))]

theorem extractLoop_ok_member (cs : List Config) (ks : List String) (ds : List SDict)
    (cs' : List Config) (h : extractLoop cs ks = .ok (ds, cs')) (c : Config) (hc : c ∈ cs) :
    ∃ d c1 c2, extractConfig c ks = .ok (d, c1) ∧ Config.free_unused c1 = .ok c2 := by
  induction cs generalizing ds cs' with
  | nil => cases hc
  | cons x xs ih =>
      simp only [extractLoop] at h
      cases hg : extractConfig x ks with
      | error e =>
          simp only [hg] at h
          exact Except.noConfusion h
      | ok pr =>
          obtain ⟨d, c1⟩ := pr
          simp only [hg] at h
          cases hf : Config.free_unused c1 with
          | error e =>
              simp only [hf] at h
              exact Except.noConfusion h
          | ok c2 =>
              simp only [hf] at h
              cases hr : extractLoop xs ks with
              | error e =>
                  simp only [hr] at h
                  exact Except.noConfusion h
              | ok pr2 =>
                  rcases List.mem_cons.mp hc with hh | hh
                  · subst hh
                    exact ⟨d, c1, c2, hg, hf⟩
                  · obtain ⟨ds2, cs2⟩ := pr2
                    exact ih ds2 cs2 hr hh

/-- C10: `free_unused` on a never-materialized `LazyData` raises
`AttributeError` (`self._data` is still `None`) rather than acting as a
no-op; a record owning such a stream therefore fails `Config.free_unused`;
and since `_aggregate_collection` calls `free_unused` on every record right
after extracting only the fields the maps request, any collection containing
a record with a lazy stream that the requested keys never materialize makes
aggregation fail — so aggregation can succeed only when every record's lazy
streams were all materialized. -/
theorem c10_free_unused_requires_materialization (ld : LazyData) (c : Config) (p : String)
    (hld : ld.data = Option.none) (hp : assocLookup c.lazydata_dict p = some ld) :
    LazyData.free_unused ld = .error .attributeError
    ∧ Config.free_unused c = .error .attributeError
    ∧ ∀ (maps : List AggMap),
        (∀ k ∈ extractKeysFromMaps maps,
          ¬(keyHead k = p ∧ assocLookup c.flattened k = some (.str "LAZYDATA"))) →
        ∀ (collection : List Config), c ∈ collection →
          ∀ res, aggregateCollection collection maps ≠ .ok res := by
  refine ⟨?_, config_free_unused_err c p ld hp hld, ?_⟩
  · rw [LazyData.free_unused]
    simp only [hld]
  · intro maps hq collection hc res h
    rw [aggregateCollection] at h
    cases hE : extractLoop collection (extractKeysFromMaps maps) with
    | error e =>
        simp only [hE] at h
        exact Except.noConfusion h
    | ok pr =>
        obtain ⟨ds, cs'⟩ := pr
        obtain ⟨d, c1, c2, hg, hf⟩ := extractLoop_ok_member collection _ ds cs' hE c hc
        have hpres := extractConfig_preserves _ c d c1 p hg hq
        have herr : Config.free_unused c1 = .error .attributeError :=
          config_free_unused_err c1 p ld (by rw [hpres]; exact hp) hld
        rw [herr] at hf
        cases hf

/-- Witness for C10: a record with an eager `metrics.loss` and an untouched
lazy `artifacts` stream, aggregated with `Min("metrics.loss")`. -/
theorem c10_free_unused_requires_materialization_witness :
    LazyData.free_unused ⟨[("artifacts.ckpt", .num 0)], [], Option.none⟩ =
        .error .attributeError
    ∧ Config.free_unused
        ⟨[("metrics.loss", .num 3), ("artifacts.ckpt", .str "LAZYDATA")],
          [("artifacts", ⟨[("artifacts.ckpt", .num 0)], [], Option.none⟩)]⟩ =
        .error .attributeError
    ∧ ∀ (maps : List AggMap),
        (∀ k ∈ extractKeysFromMaps maps,
          ¬(keyHead k = "artifacts" ∧
            assocLookup ([("metrics.loss", .num 3), ("artifacts.ckpt", .str "LAZYDATA")] : SDict)
              k = some (.str "LAZYDATA"))) →
        ∀ (collection : List Config),
          (⟨[("metrics.loss", .num 3), ("artifacts.ckpt", .str "LAZYDATA")],
            [("artifacts", ⟨[("artifacts.ckpt", .num 0)], [], Option.none⟩)]⟩ : Config)
            ∈ collection →
          ∀ res, aggregateCollection collection maps ≠ .ok res := by
  exact c10_free_unused_requires_materialization
    ⟨[("artifacts.ckpt", .num 0)], [], Option.none⟩
    ⟨[("metrics.loss", .num 3), ("artifacts.ckpt", .str "LAZYDATA")],
      [("artifacts", ⟨[("artifacts.ckpt", .num 0)], [], Option.none⟩)]⟩
    "artifacts" rfl rfl

theorem appendIfNew_mem (acc : List String) (key k : String) :
    k ∈ appendIfNew acc key ↔ k ∈ acc ∨ k = key := by
  rw [appendIfNew]
  by_cases hmem : key ∈ acc
  · rw [if_pos hmem]
    constructor
    · exact Or.inl
    · rintro (h | h)
      · exact h
      · rw [h]; exact hmem
  · rw [if_neg hmem]
    simp

/-- Whether the scan of record `c` appends key `k` (the decision the source
takes per occurrence of `k` among `c`'s keys). -/
def diffAdds (ref c : SDict) (start_key k : String) : Bool :=
  match assocLookup ref k with
  | some rv =>
      if k.startsWith start_key then !(PyVal.pyEq rv ((assocLookup c k).getD .none)) else true
  | Option.none => true

theorem diffScan_cons (ref c : SDict) (p : String) (e : String × PyVal)
    (es : List (String × PyVal)) (acc : List String) :
    diffScan ref c p (e :: es) acc =
      diffScan ref c p es (if diffAdds ref c p e.1 then appendIfNew acc e.1 else acc) := by
  rw [diffScan, diffAdds]
  cases hr : assocLookup ref e.1 with
  | none => simp
  | some rv =>
      by_cases hs : e.1.startsWith p = true
      · simp only [if_pos hs]
        by_cases he : PyVal.pyEq rv ((assocLookup c e.1).getD .none) = true
        · simp [he]
        · simp [he, Bool.not_eq_true] at *
      · simp only [Bool.not_eq_true] at hs
        simp [hs]

theorem mem_diffScan (ref c : SDict) (p : String) (l : List (String × PyVal))
    (acc : List String) (k : String) :
    k ∈ diffScan ref c p l acc ↔
      k ∈ acc ∨ (k ∈ l.map Prod.fst ∧ diffAdds ref c p k = true) := by
  induction l generalizing acc with
  | nil => simp [diffScan]
  | cons e es ih =>
      rw [diffScan_cons, ih]
      by_cases hadd : diffAdds ref c p e.1 = true
      · rw [if_pos hadd, appendIfNew_mem]
        by_cases hk : k = e.1
        · subst hk
          simp [hadd]
        · simp [hk]
      · rw [if_neg hadd]
        rw [Bool.not_eq_true] at hadd
        by_cases hk : k = e.1
        · subst hk
          simp [hadd]
        · simp [hk]

theorem mem_configDiffOuter (ref : SDict) (p : String) (l : List SDict)
    (acc : List String) (k : String) :
    k ∈ configDiffOuter ref p l acc ↔
      k ∈ acc ∨ ∃ c ∈ l, k ∈ c.map Prod.fst ∧ diffAdds ref c p k = true := by
  induction l generalizing acc with
  | nil => simp [configDiffOuter]
  | cons c cs ih =>
      rw [configDiffOuter]
      rw [ih, configDiffInner, mem_diffScan]
      simp only [List.mem_cons]
      constructor
      · rintro ((h | h) | ⟨c2, hc2, h2⟩)
        · exact Or.inl h
        · exact Or.inr ⟨c, Or.inl rfl, h⟩
        · exact Or.inr ⟨c2, Or.inr hc2, h2⟩
      · rintro (h | ⟨c2, (hc2 | hc2), h2⟩)
        · exact Or.inl (Or.inl h)
        · subst hc2
          exact Or.inl (Or.inr h2)
        · exact Or.inr ⟨c2, hc2, h2⟩

theorem assocLookup_isSome_iff (c : List (String × PyVal)) (k : String) :
    (assocLookup c k).isSome = true ↔ k ∈ c.map Prod.fst := by
  induction c with
  | nil => simp [assocLookup]
  | cons e es ih =>
      cases e with
      | mk k' v =>
          by_cases hk : k' = k
          · subst hk
            simp [assocLookup]
          · simp only [assocLookup, if_neg hk, List.map_cons, List.mem_cons]
            rw [ih]
            constructor
            · exact Or.inr
            · rintro (h | h)
              · exact absurd h.symm hk
              · exact h

/-- C8 counterexample: two runs with identical values whose only key does
*not* start with the prefix.  Every run has identical values at all keys
starting with the prefix (vacuously), so the claim says `diff` returns `[]`;
the code returns `["a.b"]`, a key that does not start with the prefix —
refuting both "returns only keys that start with prefix" and the
empty-result instance. -/
theorem c8_diff_counterexample :
    config_diff [[("a.b", .num 1)], [("a.b", .num 1)]] "metadata.custom" = ["a.b"]
    ∧ "a.b".startsWith "metadata.custom" = false := by
  exact ⟨rfl, rfl⟩

/-- C8 amended: `diff(prefix)` compares each later run against the *first*
run only, and returns exactly the keys `k` of some later run `c` such that
either (i) `k` starts with the prefix, is present in the first run, and its
value differs from the first run's (`!=`, with `nan != nan` true), or
(ii) `k` is absent from the first run or does not start with the prefix —
such keys are returned unconditionally, whether or not their values agree.
Keys present only in the first run are never reported.  In particular, on a
collection whose runs share one key set with every key starting with the
prefix, identical values yield `[]`, and changing one later run's value at
one key adds exactly that key. -/
theorem c8_diff_membership (ref : SDict) (rest : List SDict) (p k : String) :
    k ∈ config_diff (ref :: rest) p ↔
      ∃ c ∈ rest, (assocLookup c k).isSome = true ∧
        (k.startsWith p = false ∨ assocLookup ref k = Option.none ∨
          ∃ rv cv, assocLookup ref k = some rv ∧ assocLookup c k = some cv ∧
            PyVal.pyEq rv cv = false) := by
  show k ∈ configDiffOuter ref p rest [] ↔ _
  rw [mem_configDiffOuter]
  simp only [List.not_mem_nil, false_or]
  constructor
  · rintro ⟨c, hc, hkeys, hadds⟩
    refine ⟨c, hc, (assocLookup_isSome_iff c k).mpr hkeys, ?_⟩
    rw [diffAdds] at hadds
    cases hr : assocLookup ref k with
    | none => exact Or.inr (Or.inl rfl)
    | some rv =>
        rw [hr] at hadds
        have hadds2 : (if k.startsWith p = true
            then !(PyVal.pyEq rv ((assocLookup c k).getD .none)) else true) = true := hadds
        by_cases hs : k.startsWith p = true
        · rw [if_pos hs] at hadds2
          obtain ⟨cv, hcv⟩ := Option.isSome_iff_exists.mp ((assocLookup_isSome_iff c k).mpr hkeys)
          refine Or.inr (Or.inr ⟨rv, cv, rfl, hcv, ?_⟩)
          rw [hcv] at hadds2
          simp only [Option.getD_some, Bool.not_eq_true'] at hadds2
          exact hadds2
        · exact Or.inl (by rw [Bool.not_eq_true] at hs; exact hs)
  · rintro ⟨c, hc, hsome, hcond⟩
    refine ⟨c, hc, (assocLookup_isSome_iff c k).mp hsome, ?_⟩
    rw [diffAdds]
    cases hr : assocLookup ref k with
    | none => rfl
    | some rv =>
        show (if k.startsWith p = true
            then !(PyVal.pyEq rv ((assocLookup c k).getD .none)) else true) = true
        rcases hcond with hs | hnone | ⟨rv2, cv, hrv2, hcv, hne⟩
        · rw [if_neg (by rw [hs]; exact Bool.false_ne_true)]
        · rw [hr] at hnone
          cases hnone
        · rw [hr] at hrv2
          injection hrv2 with hrv2
          subst hrv2
          by_cases hs : k.startsWith p = true
          · rw [if_pos hs, hcv]
            simp only [Option.getD_some, Bool.not_eq_true']
            exact hne
          · rw [if_neg hs]

theorem nanargminAux_some_isSome (l : List PyVal) (i0 j : Nat) (q : Rat) :
    ∃ pr, nanargminAux l i0 (some (j, q)) = some pr := by
  induction l generalizing i0 j q with
  | nil => exact ⟨(j, q), rfl⟩
  | cons v vs ih =>
      cases v with
      | num r =>
          simp only [nanargminAux]
          by_cases hrq : r < q
          · rw [if_pos hrq]
            exact ih (i0 + 1) i0 r
          · rw [if_neg hrq]
            exact ih (i0 + 1) j q
      | none => exact ih (i0 + 1) j q
      | str s => exact ih (i0 + 1) j q
      | nan => exact ih (i0 + 1) j q
      | list l2 => exact ih (i0 + 1) j q

theorem nanargminAux_none_spec (l : List PyVal) (i0 : Nat)
    (h : nanargminAux l i0 Option.none = Option.none) : ∀ p : Rat, PyVal.num p ∉ l := by
  induction l generalizing i0 with
  | nil => simp
  | cons v vs ih =>
      intro p hp
      cases v with
      | num r =>
          simp only [nanargminAux] at h
          obtain ⟨pr, hpr⟩ := nanargminAux_some_isSome vs (i0 + 1) i0 r
          rw [hpr] at h
          cases h
      | none =>
          rcases List.mem_cons.mp hp with hh | hh
          · exact PyVal.noConfusion hh
          · exact ih (i0 + 1) h p hh
      | str s =>
          rcases List.mem_cons.mp hp with hh | hh
          · exact PyVal.noConfusion hh
          · exact ih (i0 + 1) h p hh
      | nan =>
          rcases List.mem_cons.mp hp with hh | hh
          · exact PyVal.noConfusion hh
          · exact ih (i0 + 1) h p hh
      | list l2 =>
          rcases List.mem_cons.mp hp with hh | hh
          · exact PyVal.noConfusion hh
          · exact ih (i0 + 1) h p hh

theorem nanargminAux_spec (l : List PyVal) (i0 : Nat) (best : Option (Nat × Rat))
    (i : Nat) (q : Rat) (h : nanargminAux l i0 best = some (i, q)) :
    (best = some (i, q) ∨ ∃ pos, pos < l.length ∧ l.get? pos = some (.num q) ∧ i = i0 + pos)
    ∧ (∀ p, PyVal.num p ∈ l → q ≤ p)
    ∧ (∀ j b, best = some (j, b) → q ≤ b) := by
  induction l generalizing i0 best with
  | nil =>
      rw [nanargminAux] at h
      refine ⟨Or.inl h, by simp, ?_⟩
      intro j b hb
      rw [h] at hb
      have hpair := Option.some.inj hb
      exact le_of_eq (congrArg Prod.snd hpair)
  | cons v vs ih =>
      cases v with
      | num r =>
          cases best with
          | none =>
              simp only [nanargminAux] at h
              obtain ⟨hfound, hmin, hbest⟩ := ih (i0 + 1) (some (i0, r)) h
              refine ⟨?_, ?_, ?_⟩
              · right
                rcases hfound with heq | ⟨pos, hp, hget, hi⟩
                · have h1 := Option.some.inj heq
                  have hi1 : i0 = i := congrArg Prod.fst h1
                  have hr1 : r = q := congrArg Prod.snd h1
                  exact ⟨0, by simp, by rw [← hr1]; rfl, by omega⟩
                · refine ⟨pos + 1, by simp; omega, by simpa using hget, by omega⟩
              · intro p hp
                rcases List.mem_cons.mp hp with hh | hh
                · injection hh with hpr
                  subst hpr
                  exact hbest i0 p rfl
                · exact hmin p hh
              · intro j b hb
                exact Option.noConfusion hb
          | some pr =>
              obtain ⟨j0, b0⟩ := pr
              simp only [nanargminAux] at h
              by_cases hrb : r < b0
              · rw [if_pos hrb] at h
                obtain ⟨hfound, hmin, hbest⟩ := ih (i0 + 1) (some (i0, r)) h
                refine ⟨?_, ?_, ?_⟩
                · right
                  rcases hfound with heq | ⟨pos, hp, hget, hi⟩
                  · have h1 := Option.some.inj heq
                    have hi1 : i0 = i := congrArg Prod.fst h1
                    have hr1 : r = q := congrArg Prod.snd h1
                    exact ⟨0, by simp, by rw [← hr1]; rfl, by omega⟩
                  · refine ⟨pos + 1, by simp; omega, by simpa using hget, by omega⟩
                · intro p hp
                  rcases List.mem_cons.mp hp with hh | hh
                  · injection hh with hpr
                    subst hpr
                    exact hbest i0 p rfl
                  · exact hmin p hh
                · intro j b hb
                  have h1 := Option.some.inj hb
                  have hb1 : b0 = b := congrArg Prod.snd h1
                  have hqr : q ≤ r := hbest i0 r rfl
                  rw [← hb1]
                  exact le_trans hqr (le_of_lt hrb)
              · rw [if_neg hrb] at h
                obtain ⟨hfound, hmin, hbest⟩ := ih (i0 + 1) (some (j0, b0)) h
                refine ⟨?_, ?_, ?_⟩
                · rcases hfound with heq | ⟨pos, hp, hget, hi⟩
                  · exact Or.inl heq
                  · exact Or.inr ⟨pos + 1, by simp; omega, by simpa using hget, by omega⟩
                · intro p hp
                  rcases List.mem_cons.mp hp with hh | hh
                  · injection hh with hpr
                    subst hpr
                    have hqb := hbest j0 b0 rfl
                    exact le_trans hqb (not_lt.mp hrb)
                  · exact hmin p hh
                · intro j b hb
                  have h1 := Option.some.inj hb
                  have hb1 : b0 = b := congrArg Prod.snd h1
                  rw [← hb1]
                  exact hbest j0 b0 rfl
      | none =>
          simp only [nanargminAux] at h
          obtain ⟨hfound, hmin, hbest⟩ := ih (i0 + 1) best h
          refine ⟨?_, ?_, hbest⟩
          · rcases hfound with heq | ⟨pos, hp, hget, hi⟩
            · exact Or.inl heq
            · exact Or.inr ⟨pos + 1, by simp; omega, by simpa using hget, by omega⟩
          · intro p hp
            rcases List.mem_cons.mp hp with hh | hh
            · exact PyVal.noConfusion hh
            · exact hmin p hh
      | str s =>
          simp only [nanargminAux] at h
          obtain ⟨hfound, hmin, hbest⟩ := ih (i0 + 1) best h
          refine ⟨?_, ?_, hbest⟩
          · rcases hfound with heq | ⟨pos, hp, hget, hi⟩
            · exact Or.inl heq
            · exact Or.inr ⟨pos + 1, by simp; omega, by simpa using hget, by omega⟩
          · intro p hp
            rcases List.mem_cons.mp hp with hh | hh
            · exact PyVal.noConfusion hh
            · exact hmin p hh
      | nan =>
          simp only [nanargminAux] at h
          obtain ⟨hfound, hmin, hbest⟩ := ih (i0 + 1) best h
          refine ⟨?_, ?_, hbest⟩
          · rcases hfound with heq | ⟨pos, hp, hget, hi⟩
            · exact Or.inl heq
            · exact Or.inr ⟨pos + 1, by simp; omega, by simpa using hget, by omega⟩
          · intro p hp
            rcases List.mem_cons.mp hp with hh | hh
            · exact PyVal.noConfusion hh
            · exact hmin p hh
      | list l2 =>
          simp only [nanargminAux] at h
          obtain ⟨hfound, hmin, hbest⟩ := ih (i0 + 1) best h
          refine ⟨?_, ?_, hbest⟩
          · rcases hfound with heq | ⟨pos, hp, hget, hi⟩
            · exact Or.inl heq
            · exact Or.inr ⟨pos + 1, by simp; omega, by simpa using hget, by omega⟩
          · intro p hp
            rcases List.mem_cons.mp hp with hh | hh
            · exact PyVal.noConfusion hh
            · exact hmin p hh

theorem nanargmin_spec (l : List PyVal) (i : Nat) (h : nanargmin l = some i) :
    ∃ q, i < l.length ∧ l.get? i = some (.num q) ∧ ∀ p, PyVal.num p ∈ l → q ≤ p := by
  rw [nanargmin] at h
  cases hx : nanargminAux l 0 Option.none with
  | none => rw [hx] at h; cases h
  | some pr =>
      obtain ⟨i2, q⟩ := pr
      rw [hx] at h
      have hi : i2 = i := by
        simpa using h
      subst hi
      obtain ⟨hfound, hmin, _⟩ := nanargminAux_spec l 0 Option.none i2 q hx
      rcases hfound with heq | ⟨pos, hp, hget, hpos⟩
      · exact Option.noConfusion heq
      · have : i2 = pos := by omega
        subst this
        exact ⟨q, hp, hget, hmin⟩

theorem nanargmin_none_spec (l : List PyVal) (h : nanargmin l = Option.none) :
    ∀ p : Rat, PyVal.num p ∉ l := by
  rw [nanargmin] at h
  cases hx : nanargminAux l 0 Option.none with
  | none => exact nanargminAux_none_spec l 0 hx
  | some pr => rw [hx] at h; cases h

theorem nanargmaxAux_some_isSome (l : List PyVal) (i0 j : Nat) (q : Rat) :
    ∃ pr, nanargmaxAux l i0 (some (j, q)) = some pr := by
  induction l generalizing i0 j q with
  | nil => exact ⟨(j, q), rfl⟩
  | cons v vs ih =>
      cases v with
      | num r =>
          simp only [nanargmaxAux]
          by_cases hrq : q < r
          · rw [if_pos hrq]
            exact ih (i0 + 1) i0 r
          · rw [if_neg hrq]
            exact ih (i0 + 1) j q
      | none => exact ih (i0 + 1) j q
      | str s => exact ih (i0 + 1) j q
      | nan => exact ih (i0 + 1) j q
      | list l2 => exact ih (i0 + 1) j q

theorem nanargmaxAux_none_spec (l : List PyVal) (i0 : Nat)
    (h : nanargmaxAux l i0 Option.none = Option.none) : ∀ p : Rat, PyVal.num p ∉ l := by
  induction l generalizing i0 with
  | nil => simp
  | cons v vs ih =>
      intro p hp
      cases v with
      | num r =>
          simp only [nanargmaxAux] at h
          obtain ⟨pr, hpr⟩ := nanargmaxAux_some_isSome vs (i0 + 1) i0 r
          rw [hpr] at h
          cases h
      | none =>
          rcases List.mem_cons.mp hp with hh | hh
          · exact PyVal.noConfusion hh
          · exact ih (i0 + 1) h p hh
      | str s =>
          rcases List.mem_cons.mp hp with hh | hh
          · exact PyVal.noConfusion hh
          · exact ih (i0 + 1) h p hh
      | nan =>
          rcases List.mem_cons.mp hp with hh | hh
          · exact PyVal.noConfusion hh
          · exact ih (i0 + 1) h p hh
      | list l2 =>
          rcases List.mem_cons.mp hp with hh | hh
          · exact PyVal.noConfusion hh
          · exact ih (i0 + 1) h p hh

theorem nanargmaxAux_spec (l : List PyVal) (i0 : Nat) (best : Option (Nat × Rat))
    (i : Nat) (q : Rat) (h : nanargmaxAux l i0 best = some (i, q)) :
    (best = some (i, q) ∨ ∃ pos, pos < l.length ∧ l.get? pos = some (.num q) ∧ i = i0 + pos)
    ∧ (∀ p, PyVal.num p ∈ l → p ≤ q)
    ∧ (∀ j b, best = some (j, b) → b ≤ q) := by
  induction l generalizing i0 best with
  | nil =>
      rw [nanargmaxAux] at h
      refine ⟨Or.inl h, by simp, ?_⟩
      intro j b hb
      rw [h] at hb
      have hpair := Option.some.inj hb
      exact le_of_eq (congrArg Prod.snd hpair).symm
  | cons v vs ih =>
      cases v with
      | num r =>
          cases best with
          | none =>
              simp only [nanargmaxAux] at h
              obtain ⟨hfound, hmax, hbest⟩ := ih (i0 + 1) (some (i0, r)) h
              refine ⟨?_, ?_, ?_⟩
              · right
                rcases hfound with heq | ⟨pos, hp, hget, hi⟩
                · have h1 := Option.some.inj heq
                  have hr1 : r = q := congrArg Prod.snd h1
                  exact ⟨0, by simp, by rw [← hr1]; rfl, by
                    have hi1 : i0 = i := congrArg Prod.fst h1
                    omega⟩
                · refine ⟨pos + 1, by simp; omega, by simpa using hget, by omega⟩
              · intro p hp
                rcases List.mem_cons.mp hp with hh | hh
                · injection hh with hpr
                  subst hpr
                  exact hbest i0 p rfl
                · exact hmax p hh
              · intro j b hb
                exact Option.noConfusion hb
          | some pr =>
              obtain ⟨j0, b0⟩ := pr
              simp only [nanargmaxAux] at h
              by_cases hrb : b0 < r
              · rw [if_pos hrb] at h
                obtain ⟨hfound, hmax, hbest⟩ := ih (i0 + 1) (some (i0, r)) h
                refine ⟨?_, ?_, ?_⟩
                · right
                  rcases hfound with heq | ⟨pos, hp, hget, hi⟩
                  · have h1 := Option.some.inj heq
                    have hr1 : r = q := congrArg Prod.snd h1
                    exact ⟨0, by simp, by rw [← hr1]; rfl, by
                      have hi1 : i0 = i := congrArg Prod.fst h1
                      omega⟩
                  · refine ⟨pos + 1, by simp; omega, by simpa using hget, by omega⟩
                · intro p hp
                  rcases List.mem_cons.mp hp with hh | hh
                  · injection hh with hpr
                    subst hpr
                    exact hbest i0 p rfl
                  · exact hmax p hh
                · intro j b hb
                  have h1 := Option.some.inj hb
                  have hb1 : b0 = b := congrArg Prod.snd h1
                  have hrq : r ≤ q := hbest i0 r rfl
                  rw [← hb1]
                  exact le_trans (le_of_lt hrb) hrq
              · rw [if_neg hrb] at h
                obtain ⟨hfound, hmax, hbest⟩ := ih (i0 + 1) (some (j0, b0)) h
                refine ⟨?_, ?_, ?_⟩
                · rcases hfound with heq | ⟨pos, hp, hget, hi⟩
                  · exact Or.inl heq
                  · exact Or.inr ⟨pos + 1, by simp; omega, by simpa using hget, by omega⟩
                · intro p hp
                  rcases List.mem_cons.mp hp with hh | hh
                  · injection hh with hpr
                    subst hpr
                    have hbq := hbest j0 b0 rfl
                    exact le_trans (not_lt.mp hrb) hbq
                  · exact hmax p hh
                · intro j b hb
                  have h1 := Option.some.inj hb
                  have hb1 : b0 = b := congrArg Prod.snd h1
                  rw [← hb1]
                  exact hbest j0 b0 rfl
      | none =>
          simp only [nanargmaxAux] at h
          obtain ⟨hfound, hmax, hbest⟩ := ih (i0 + 1) best h
          refine ⟨?_, ?_, hbest⟩
          · rcases hfound with heq | ⟨pos, hp, hget, hi⟩
            · exact Or.inl heq
            · exact Or.inr ⟨pos + 1, by simp; omega, by simpa using hget, by omega⟩
          · intro p hp
            rcases List.mem_cons.mp hp with hh | hh
            · exact PyVal.noConfusion hh
            · exact hmax p hh
      | str s =>
          simp only [nanargmaxAux] at h
          obtain ⟨hfound, hmax, hbest⟩ := ih (i0 + 1) best h
          refine ⟨?_, ?_, hbest⟩
          · rcases hfound with heq | ⟨pos, hp, hget, hi⟩
            · exact Or.inl heq
            · exact Or.inr ⟨pos + 1, by simp; omega, by simpa using hget, by omega⟩
          · intro p hp
            rcases List.mem_cons.mp hp with hh | hh
            · exact PyVal.noConfusion hh
            · exact hmax p hh
      | nan =>
          simp only [nanargmaxAux] at h
          obtain ⟨hfound, hmax, hbest⟩ := ih (i0 + 1) best h
          refine ⟨?_, ?_, hbest⟩
          · rcases hfound with heq | ⟨pos, hp, hget, hi⟩
            · exact Or.inl heq
            · exact Or.inr ⟨pos + 1, by simp; omega, by simpa using hget, by omega⟩
          · intro p hp
            rcases List.mem_cons.mp hp with hh | hh
            · exact PyVal.noConfusion hh
            · exact hmax p hh
      | list l2 =>
          simp only [nanargmaxAux] at h
          obtain ⟨hfound, hmax, hbest⟩ := ih (i0 + 1) best h
          refine ⟨?_, ?_, hbest⟩
          · rcases hfound with heq | ⟨pos, hp, hget, hi⟩
            · exact Or.inl heq
            · exact Or.inr ⟨pos + 1, by simp; omega, by simpa using hget, by omega⟩
          · intro p hp
            rcases List.mem_cons.mp hp with hh | hh
            · exact PyVal.noConfusion hh
            · exact hmax p hh

theorem nanargmax_spec (l : List PyVal) (i : Nat) (h : nanargmax l = some i) :
    ∃ q, i < l.length ∧ l.get? i = some (.num q) ∧ ∀ p, PyVal.num p ∈ l → p ≤ q := by
  rw [nanargmax] at h
  cases hx : nanargmaxAux l 0 Option.none with
  | none => rw [hx] at h; cases h
  | some pr =>
      obtain ⟨i2, q⟩ := pr
      rw [hx] at h
      have hi : i2 = i := by
        simpa using h
      subst hi
      obtain ⟨hfound, hmax, _⟩ := nanargmaxAux_spec l 0 Option.none i2 q hx
      rcases hfound with heq | ⟨pos, hp, hget, hpos⟩
      · exact Option.noConfusion heq
      · have : i2 = pos := by omega
        subst this
        exact ⟨q, hp, hget, hmax⟩

theorem nanargmax_none_spec (l : List PyVal) (h : nanargmax l = Option.none) :
    ∀ p : Rat, PyVal.num p ∉ l := by
  rw [nanargmax] at h
  cases hx : nanargmaxAux l 0 Option.none with
  | none => exact nanargmaxAux_none_spec l 0 hx
  | some pr => rw [hx] at h; cases h

theorem pyIndex_ofNat {α : Type} (l : List α) (i : Nat) (ci : α) (h : l.get? i = some ci) :
    pyIndex l (i : Int) = .ok ci := by
  obtain ⟨hlt, hget⟩ := List.get?_eq_some.mp h
  rw [pyIndex]
  have h0 : ¬((i : Int) < 0) := Int.not_lt.mpr (Int.natCast_nonneg i)
  simp only [if_neg h0]
  have hcond : (0 : Int) ≤ (i : Int) ∧ ((i : Int)).toNat < l.length := by
    refine ⟨Int.natCast_nonneg i, ?_⟩
    rw [Int.toNat_natCast]
    exact hlt
  rw [dif_pos hcond]
  have hv : l.get ⟨((i : Int)).toNat, hcond.2⟩ = ci := by
    have h2 : l.get? (((i : Int)).toNat) = some ci := by
      rw [Int.toNat_natCast]
      exact h
    rw [List.get?_eq_get hcond.2] at h2
    exact Option.some.inj h2
  rw [hv]

theorem pyIndex_neg_one {α : Type} (l : List α) (x : α) (h : l.getLast? = some x) :
    pyIndex l (-1 : Int) = .ok x := by
  have hne : l ≠ [] := by
    intro he
    subst he
    cases h
  have hlen : 0 < l.length := List.length_pos.mpr hne
  rw [pyIndex]
  have hneg : (-1 : Int) < 0 := by norm_num
  simp only [if_pos hneg]
  have hj : (-1 : Int) + l.length = ((l.length - 1 : Nat) : Int) := by
    omega
  have hcond : (0 : Int) ≤ (-1 : Int) + l.length ∧
      ((-1 : Int) + l.length).toNat < l.length := by
    constructor
    · omega
    · rw [hj, Int.toNat_natCast]
      omega
  rw [dif_pos hcond]
  have h2 : l.get? (((-1 : Int) + l.length).toNat) = some x := by
    rw [hj, Int.toNat_natCast]
    rw [← List.getLast?_eq_get?]
    exact h
  rw [List.get?_eq_get hcond.2] at h2
  rw [Option.some.inj h2]

theorem getItem_eager (c : Config) (k : String) (v : PyVal)
    (hl : assocLookup c.flattened k = some v) (hv : v.isStrVal = false) :
    c.getItem k = .ok (v, c) := by
  rw [Config.getItem, hl]
  cases v with
  | num q => rfl
  | nan => rfl
  | none => rfl
  | str s => simp [PyVal.isStrVal] at hv
  | list l => rfl

theorem isNumOrNan_not_str (v : PyVal) (h : v.isNumOrNan = true) : v.isStrVal = false := by
  cases v <;> simp_all [PyVal.isNumOrNan, PyVal.isStrVal]

theorem config_free_unused_eager (c : Config) (h : c.lazydata_dict = []) :
    Config.free_unused c = .ok c := by
  rw [Config.free_unused, h]
  show (match (Except.ok [] : Except PyErr (List (String × LazyData))) with
        | Except.error e => (Except.error e : Except PyErr Config)
        | Except.ok l => Except.ok { c with lazydata_dict := l }) = Except.ok c
  cases c with
  | mk fl ld =>
      simp only []
      simp at h
      rw [h]

/-- The values of one field across a collection, as the code's
`selected_data` list reads them (specification-side helper). -/
def fieldVals (k : String) (cs : List Config) : List PyVal :=
  cs.map fun c => (assocLookup c.flattened k).getD .none

/-- One run's sequence at a field, as the rational image of the numpy float
array (specification-side helper; empty when absent or non-numeric). -/
def fieldSeq (k : String) (c : Config) : List Rat :=
  ((assocLookup c.flattened k).bind PyVal.asRatList).getD []

/-- The per-run sequences of one field across a collection
(specification-side helper). -/
def fieldSeqs (k : String) (cs : List Config) : List (List Rat) :=
  cs.map (fieldSeq k)

theorem extractLoop_eager (cs : List Config) (k : String)
    (h : ∀ c ∈ cs, c.lazydata_dict = [] ∧
      ∃ v, assocLookup c.flattened k = some v ∧ v.isStrVal = false) :
    extractLoop cs [k] = .ok ((fieldVals k cs).map fun v => [(k, v)], cs) := by
  induction cs with
  | nil => rfl
  | cons c rest ih =>
      obtain ⟨hld, v, hv, hnum⟩ := h c (by simp)
      have hone : extractConfig c [k] = .ok ([(k, v)], c) := by
        rw [extractConfig]
        rw [getItem_eager c k v hv hnum]
        rfl
      rw [extractLoop, hone]
      simp only []
      rw [config_free_unused_eager c hld]
      simp only []
      rw [ih (fun c2 hc2 => h c2 (by simp [hc2]))]
      simp only [fieldVals, List.map_cons, hv, Option.getD_some]

theorem selectedData_singletons (k : String) (vs : List PyVal) :
    selectedData k (vs.map fun v => [(k, v)]) = .ok vs := by
  induction vs with
  | nil => rfl
  | cons v rest ih =>
      simp only [List.map_cons, selectedData, assocLookup]
      simp [ih]

theorem applyMaps_single (cs : List Config) (val : List SDict) (m : AggMap)
    (agg_val : SDict) (i : Int) (ci : Config)
    (happ : m.apply val = .ok (agg_val, some i)) (hidx : pyIndex cs i = .ok ci) :
    applyMaps cs val [m] = .ok [(m.name, [ci.update agg_val])] := by
  rw [applyMaps, happ]
  simp only [hidx]
  rfl

theorem applyMaps_single_none (cs : List Config) (val : List SDict) (m : AggMap)
    (agg_val : SDict) (happ : m.apply val = .ok (agg_val, Option.none)) :
    applyMaps cs val [m] = .ok [(m.name, cs.map fun c => c.update agg_val)] := by
  rw [applyMaps, happ]
  rfl

theorem aggregateCollection_eager_single (cs : List Config) (k : String) (m : AggMap)
    (hm : m.mapKeys = [k])
    (h : ∀ c ∈ cs, c.lazydata_dict = [] ∧
      ∃ v, assocLookup c.flattened k = some v ∧ v.isStrVal = false) :
    aggregateCollection cs [m] =
      applyMaps cs ((fieldVals k cs).map fun v => [(k, v)]) [m] := by
  have hkeys : extractKeysFromMaps [m] = [k] := by
    simp [extractKeysFromMaps, hm]
  simp only [aggregateCollection, hkeys, extractLoop_eager cs k h]

theorem minApply_eval_some (k : String) (vals : List PyVal)
    (hall : vals.all PyVal.isNumOrNan = true) (i : Nat) (vi : PyVal)
    (hmin : nanargmin vals = some i) (hget : vals.get? i = some vi) :
    minApply k (vals.map fun v => [(k, v)]) =
      .ok ([("min(" ++ k ++ ")", vi)], some (i : Int)) := by
  rw [minApply, selectedData_singletons]
  simp only [if_pos hall, hmin]
  rw [pyIndex_ofNat vals i vi hget]

theorem minApply_eval_none (k : String) (vals : List PyVal)
    (hall : vals.all PyVal.isNumOrNan = true) (vlast : PyVal)
    (hmin : nanargmin vals = Option.none) (hlast : vals.getLast? = some vlast) :
    minApply k (vals.map fun v => [(k, v)]) =
      .ok ([("min(" ++ k ++ ")", vlast)], some (-1 : Int)) := by
  rw [minApply, selectedData_singletons]
  simp only [if_pos hall, hmin]
  rw [pyIndex_neg_one vals vlast hlast]

theorem maxApply_eval_some (k : String) (vals : List PyVal)
    (hall : vals.all PyVal.isNumOrNan = true) (i : Nat) (vi : PyVal)
    (hmax : nanargmax vals = some i) (hget : vals.get? i = some vi) :
    maxApply k (vals.map fun v => [(k, v)]) =
      .ok ([("max(" ++ k ++ ")", vi)], some (i : Int)) := by
  rw [maxApply, selectedData_singletons]
  simp only [if_pos hall, hmax]
  rw [pyIndex_ofNat vals i vi hget]

theorem maxApply_eval_none (k : String) (vals : List PyVal)
    (hall : vals.all PyVal.isNumOrNan = true) (vlast : PyVal)
    (hmax : nanargmax vals = Option.none) (hlast : vals.getLast? = some vlast) :
    maxApply k (vals.map fun v => [(k, v)]) =
      .ok ([("max(" ++ k ++ ")", vlast)], some (-1 : Int)) := by
  rw [maxApply, selectedData_singletons]
  simp only [if_pos hall, hmax]
  rw [pyIndex_neg_one vals vlast hlast]

/-- C2: on an eager leaf group where the target field holds a float (number
or NaN) in every run, `Min` locates the arg-min among the numeric values
(NaN entries — the missing/non-comparable markers — are ignored), returns a
single-record collection holding that run's record (deep-copied; the pure
model's deepcopy is the identity) annotated with `min(field)` bound to the
optimal value, and the annotated value is minimal among all numeric entries;
when no entry is numeric (`nanargmin` raises the caught `ValueError`), the
fallback index `-1` selects the *last* run instead of failing.  `Max` is the
mirror image under `max(field)`. -/
theorem c2_min_max_selection (k : String) (cs : List Config) (hne : cs ≠ [])
    (h : ∀ c ∈ cs, c.lazydata_dict = [] ∧
      ∃ v, assocLookup c.flattened k = some v ∧ v.isNumOrNan = true) :
    (∀ i, nanargmin (fieldVals k cs) = some i →
      ∃ ci q, cs.get? i = some ci ∧ (fieldVals k cs).get? i = some (.num q) ∧
        aggregateCollection cs [.min k] =
          .ok [("min(" ++ k ++ ")", [ci.update [("min(" ++ k ++ ")", .num q)]])] ∧
        ∀ p, PyVal.num p ∈ fieldVals k cs → q ≤ p)
    ∧ (nanargmin (fieldVals k cs) = Option.none →
      (∀ p : Rat, PyVal.num p ∉ fieldVals k cs) ∧
      ∃ clast vlast, cs.getLast? = some clast ∧ (fieldVals k cs).getLast? = some vlast ∧
        aggregateCollection cs [.min k] =
          .ok [("min(" ++ k ++ ")", [clast.update [("min(" ++ k ++ ")", vlast)]])])
    ∧ (∀ i, nanargmax (fieldVals k cs) = some i →
      ∃ ci q, cs.get? i = some ci ∧ (fieldVals k cs).get? i = some (.num q) ∧
        aggregateCollection cs [.max k] =
          .ok [("max(" ++ k ++ ")", [ci.update [("max(" ++ k ++ ")", .num q)]])] ∧
        ∀ p, PyVal.num p ∈ fieldVals k cs → p ≤ q)
    ∧ (nanargmax (fieldVals k cs) = Option.none →
      (∀ p : Rat, PyVal.num p ∉ fieldVals k cs) ∧
      ∃ clast vlast, cs.getLast? = some clast ∧ (fieldVals k cs).getLast? = some vlast ∧
        aggregateCollection cs [.max k] =
          .ok [("max(" ++ k ++ ")", [clast.update [("max(" ++ k ++ ")", vlast)]])]) := by
  have hall : (fieldVals k cs).all PyVal.isNumOrNan = true := by
    rw [List.all_eq_true]
    intro v hv
    obtain ⟨c, hc, hrfl⟩ := List.mem_map.mp hv
    obtain ⟨hld, w, hw, hnum⟩ := h c hc
    rw [← hrfl, hw]
    exact hnum
  have hstr : ∀ c ∈ cs, c.lazydata_dict = [] ∧
      ∃ v, assocLookup c.flattened k = some v ∧ v.isStrVal = false := by
    intro c hc
    obtain ⟨hld, v, hv, hnum⟩ := h c hc
    exact ⟨hld, v, hv, isNumOrNan_not_str v hnum⟩
  have haggmin := aggregateCollection_eager_single cs k (.min k) rfl hstr
  have haggmax := aggregateCollection_eager_single cs k (.max k) rfl hstr
  have hlen : (fieldVals k cs).length = cs.length := List.length_map _ _
  have hlast : ∀ clast, cs.getLast? = some clast →
      (fieldVals k cs).getLast? = some ((assocLookup clast.flattened k).getD .none) := by
    intro clast hclast
    rw [fieldVals, List.getLast?_map, hclast]
    rfl
  obtain ⟨clast, hclast⟩ : ∃ x, cs.getLast? = some x :=
    Option.isSome_iff_exists.mp (List.getLast?_isSome.mpr hne)
  refine ⟨?_, ?_, ?_, ?_⟩
  · intro i hmin
    obtain ⟨q, hlt, hget, hminimal⟩ := nanargmin_spec _ i hmin
    obtain ⟨ci, hci⟩ : ∃ ci, cs.get? i = some ci := by
      rw [List.get?_eq_get (by omega : i < cs.length)]
      exact ⟨_, rfl⟩
    refine ⟨ci, q, hci, hget, ?_, hminimal⟩
    rw [haggmin]
    have happ : AggMap.apply (.min k) ((fieldVals k cs).map fun v => [(k, v)]) =
        .ok ([("min(" ++ k ++ ")", .num q)], some (i : Int)) :=
      minApply_eval_some k _ hall i (.num q) hmin hget
    rw [applyMaps_single cs _ (.min k) _ _ ci happ (pyIndex_ofNat cs i ci hci)]
    rfl
  · intro hmin
    refine ⟨nanargmin_none_spec _ hmin, clast, _, hclast, hlast clast hclast, ?_⟩
    rw [haggmin]
    have happ : AggMap.apply (.min k) ((fieldVals k cs).map fun v => [(k, v)]) =
        .ok ([("min(" ++ k ++ ")", (assocLookup clast.flattened k).getD .none)],
          some (-1 : Int)) :=
      minApply_eval_none k _ hall _ hmin (hlast clast hclast)
    rw [applyMaps_single cs _ (.min k) _ _ clast happ (pyIndex_neg_one cs clast hclast)]
    rfl
  · intro i hmax
    obtain ⟨q, hlt, hget, hmaximal⟩ := nanargmax_spec _ i hmax
    obtain ⟨ci, hci⟩ : ∃ ci, cs.get? i = some ci := by
      rw [List.get?_eq_get (by omega : i < cs.length)]
      exact ⟨_, rfl⟩
    refine ⟨ci, q, hci, hget, ?_, hmaximal⟩
    rw [haggmax]
    have happ : AggMap.apply (.max k) ((fieldVals k cs).map fun v => [(k, v)]) =
        .ok ([("max(" ++ k ++ ")", .num q)], some (i : Int)) :=
      maxApply_eval_some k _ hall i (.num q) hmax hget
    rw [applyMaps_single cs _ (.max k) _ _ ci happ (pyIndex_ofNat cs i ci hci)]
    rfl
  · intro hmax
    refine ⟨nanargmax_none_spec _ hmax, clast, _, hclast, hlast clast hclast, ?_⟩
    rw [haggmax]
    have happ : AggMap.apply (.max k) ((fieldVals k cs).map fun v => [(k, v)]) =
        .ok ([("max(" ++ k ++ ")", (assocLookup clast.flattened k).getD .none)],
          some (-1 : Int)) :=
      maxApply_eval_none k _ hall _ hmax (hlast clast hclast)
    rw [applyMaps_single cs _ (.max k) _ _ clast happ (pyIndex_neg_one cs clast hclast)]
    rfl

/-- Witness for C2 at the claim's concrete instance `[{x:3},{x:1},{x:2}]`:
Min returns the `x=1` record annotated with `min(x)=1`, Max the `x=3` record
annotated with `max(x)=3`. -/
theorem c2_min_max_selection_witness :
    aggregateCollection
        [⟨[("x", .num 3)], []⟩, ⟨[("x", .num 1)], []⟩, ⟨[("x", .num 2)], []⟩]
        [.min "x"] =
      .ok [("min(x)", [⟨[("x", .num 1), ("min(x)", .num 1)], []⟩])]
    ∧ aggregateCollection
        [⟨[("x", .num 3)], []⟩, ⟨[("x", .num 1)], []⟩, ⟨[("x", .num 2)], []⟩]
        [.max "x"] =
      .ok [("max(x)", [⟨[("x", .num 3), ("max(x)", .num 3)], []⟩])] := by
  have h := c2_min_max_selection "x"
      [⟨[("x", .num 3)], []⟩, ⟨[("x", .num 1)], []⟩, ⟨[("x", .num 2)], []⟩]
      (List.cons_ne_nil _ _)
      (by
        intro c hc
        simp only [List.mem_cons, List.not_mem_nil, or_false] at hc
        rcases hc with rfl | rfl | rfl
        · exact ⟨rfl, .num 3, rfl, rfl⟩
        · exact ⟨rfl, .num 1, rfl, rfl⟩
        · exact ⟨rfl, .num 2, rfl, rfl⟩)
  constructor
  · obtain ⟨ci, q, hci, hget, hagg, hminimal⟩ := h.1 1 rfl
    have hci2 : (⟨[("x", .num 1)], []⟩ : Config) = ci := Option.some.inj hci
    have hq2 : (1 : Rat) = q := PyVal.num.inj (Option.some.inj hget)
    rw [hagg, ← hci2, ← hq2]
    rfl
  · obtain ⟨ci, q, hci, hget, hagg, hmaximal⟩ := h.2.2.1 0 rfl
    have hci2 : (⟨[("x", .num 3)], []⟩ : Config) = ci := Option.some.inj hci
    have hq2 : (3 : Rat) = q := PyVal.num.inj (Option.some.inj hget)
    rw [hagg, ← hci2, ← hq2]
    rfl

theorem getD_zipWith (f : Rat → Rat → Rat) (a : List Rat) :
    ∀ (b : List Rat) (j : Nat), j < a.length → j < b.length →
      (List.zipWith f a b).getD j 0 = f (a.getD j 0) (b.getD j 0) := by
  induction a with
  | nil =>
      intro b j ha hb
      simp at ha
  | cons x xs ih =>
      intro b j ha hb
      cases b with
      | nil => simp at hb
      | cons y ys =>
          cases j with
          | zero => rfl
          | succ j =>
              simp only [List.zipWith_cons_cons, List.getD_cons_succ]
              exact ih ys j (by simpa using ha) (by simpa using hb)

theorem getD_take (l : List Rat) : ∀ (n j : Nat), j < n →
    (l.take n).getD j 0 = l.getD j 0 := by
  induction l with
  | nil => intro n j hj; simp
  | cons x xs ih =>
      intro n j hj
      cases n with
      | zero => exact absurd hj (Nat.not_lt_zero j)
      | succ n =>
          cases j with
          | zero => rfl
          | succ j =>
              simp only [List.take_succ_cons, List.getD_cons_succ]
              exact ih n j (by omega)

theorem getD_map (f : Rat → Rat) (l : List Rat) : ∀ (j : Nat), j < l.length →
    (l.map f).getD j 0 = f (l.getD j 0) := by
  induction l with
  | nil => intro j hj; simp at hj
  | cons x xs ih =>
      intro j hj
      cases j with
      | zero => rfl
      | succ j =>
          simp only [List.map_cons, List.getD_cons_succ]
          exact ih j (by simpa using hj)

theorem getD_replicate (n j : Nat) : (List.replicate n (0 : Rat)).getD j 0 = 0 := by
  induction n generalizing j with
  | zero => simp
  | succ n ih =>
      cases j with
      | zero => rfl
      | succ j =>
          simp only [List.replicate_succ, List.getD_cons_succ]
          exact ih j

theorem getD_of_get? (l : List Rat) : ∀ (j : Nat) (x : Rat), l.get? j = some x →
    l.getD j 0 = x := by
  induction l with
  | nil => intro j x h; cases h
  | cons y ys ih =>
      intro j x h
      cases j with
      | zero =>
          simp only [List.get?_cons_zero] at h
          simp only [List.getD_cons_zero]
          exact Option.some.inj h
      | succ j =>
          simp only [List.get?_cons_succ] at h
          simp only [List.getD_cons_succ]
          exact ih j x h

theorem ratSqrt_zero : ratSqrt 0 = 0 := by
  rw [ratSqrt]
  norm_num

theorem get?_eq_some_getD (l : List Rat) : ∀ (j : Nat), j < l.length →
    l.get? j = some (l.getD j 0) := by
  induction l with
  | nil => intro j hj; simp at hj
  | cons x xs ih =>
      intro j hj
      cases j with
      | zero => rfl
      | succ j =>
          simp only [List.get?_cons_succ, List.getD_cons_succ]
          exact ih j (by simpa using hj)

theorem foldl_min_le (vs : List (List Rat)) : ∀ a : Nat,
    vs.foldl (fun a v => Nat.min a v.length) a ≤ a := by
  induction vs with
  | nil => intro a; exact le_refl a
  | cons v rest ih =>
      intro a
      exact le_trans (ih (Nat.min a v.length)) (Nat.min_le_left _ _)

theorem accum_fold_spec (vs : List (List Rat)) :
    ∀ (s1 s2 : List Rat), s2.length = s1.length →
    ((vs.foldl accumStep (s1, s2)).1.length
        = vs.foldl (fun a v => Nat.min a v.length) s1.length)
    ∧ ((vs.foldl accumStep (s1, s2)).2.length = (vs.foldl accumStep (s1, s2)).1.length)
    ∧ ∀ j, j < (vs.foldl accumStep (s1, s2)).1.length →
        (vs.foldl accumStep (s1, s2)).1.get? j
            = some (s1.getD j 0 + (vs.map (fun v => v.getD j 0)).sum)
        ∧ (vs.foldl accumStep (s1, s2)).2.get? j
            = some (s2.getD j 0 + (vs.map (fun v => sq (v.getD j 0))).sum) := by
  induction vs with
  | nil =>
      intro s1 s2 hlen
      refine ⟨rfl, hlen, ?_⟩
      intro j hj
      simp only [List.foldl_nil] at hj ⊢
      constructor
      · rw [get?_eq_some_getD s1 j hj]
        simp
      · rw [get?_eq_some_getD s2 j (by omega)]
        simp
  | cons v rest ih =>
      intro s1 s2 hlen
      set L := Nat.min s1.length v.length with hL
      have hminle : L ≤ s1.length := Nat.min_le_left _ _
      have hminlev : L ≤ v.length := Nat.min_le_right _ _
      have hlen1 : (List.zipWith (· + ·) (s1.take L) (v.take L)).length = L := by
        rw [List.length_zipWith, List.length_take, List.length_take]
        omega
      have hlen2 : (List.zipWith (· + ·) (s2.take L) ((v.take L).map sq)).length = L := by
        rw [List.length_zipWith, List.length_take, List.length_map, List.length_take]
        omega
      obtain ⟨ihlen, ihlen2, ihent⟩ := ih
        (List.zipWith (· + ·) (s1.take L) (v.take L))
        (List.zipWith (· + ·) (s2.take L) ((v.take L).map sq))
        (hlen2.trans hlen1.symm)
      have hstep : (v :: rest).foldl accumStep (s1, s2) =
          rest.foldl accumStep
            (List.zipWith (· + ·) (s1.take L) (v.take L),
             List.zipWith (· + ·) (s2.take L) ((v.take L).map sq)) := rfl
      rw [hstep]
      refine ⟨?_, ihlen2, ?_⟩
      · rw [ihlen, hlen1]
        rfl
      · intro j hj
        have hjL : j < L := by
          have hle := foldl_min_le rest
            (List.zipWith (· + ·) (s1.take L) (v.take L)).length
          rw [ihlen] at hj
          omega
        obtain ⟨he1, he2⟩ := ihent j hj
        constructor
        · rw [he1]
          rw [getD_zipWith _ _ _ j
            (by rw [List.length_take]; omega)
            (by rw [List.length_take]; omega)]
          rw [getD_take s1 _ j hjL, getD_take v _ j hjL]
          simp only [List.map_cons, List.sum_cons]
          rw [add_assoc]
        · rw [he2]
          rw [getD_zipWith _ _ _ j
            (by rw [List.length_take]; omega)
            (by rw [List.length_map, List.length_take]; omega)]
          rw [getD_map sq _ j (by rw [List.length_take]; omega)]
          rw [getD_take s2 _ j hjL, getD_take v _ j hjL]
          simp only [List.map_cons, List.sum_cons]
          rw [add_assoc]

theorem computeMeanAndStd_spec (v0 : List Rat) (rest : List (List Rat)) :
    ∃ avg std, computeMeanAndStd (v0 :: rest) = .ok (avg, std)
      ∧ avg.length = (v0 :: rest).foldl (fun a v => Nat.min a v.length) v0.length
      ∧ std.length = avg.length
      ∧ ∀ j, j < avg.length →
          avg.get? j = some (((v0 :: rest).map (fun v => v.getD j 0)).sum
              / ((v0 :: rest).length : Rat))
          ∧ std.get? j = some (ratSqrt
              (((v0 :: rest).map (fun v => sq (v.getD j 0))).sum
                  / ((v0 :: rest).length : Rat)
                - sq (((v0 :: rest).map (fun v => v.getD j 0)).sum
                  / ((v0 :: rest).length : Rat)))) := by
  cases rest with
  | nil =>
      refine ⟨v0, List.replicate v0.length 0, rfl, by simp, by simp, ?_⟩
      intro j hj
      constructor
      · rw [get?_eq_some_getD v0 j hj]
        norm_num
      · rw [get?_eq_some_getD _ j (by simpa using hj), getD_replicate]
        have harg : (([v0].map (fun v => sq (v.getD j 0))).sum / (([v0] : List (List Rat)).length : Rat)
            - sq (([v0].map (fun v => v.getD j 0)).sum / (([v0] : List (List Rat)).length : Rat))) = 0 := by
          norm_num
        rw [harg, ratSqrt_zero]
  | cons v1 rest2 =>
      obtain ⟨hlen1, hlen2, hent⟩ := accum_fold_spec (v0 :: v1 :: rest2)
        (List.replicate v0.length 0) (List.replicate v0.length 0) (by simp)
      refine ⟨_, _, rfl, ?_, ?_, ?_⟩
      · rw [List.length_map, hlen1, List.length_replicate]
      · simp only [List.length_map, List.length_zipWith, hlen2, Nat.min_self]
      · intro j hj
        rw [List.length_map] at hj
        obtain ⟨he1, he2⟩ := hent j hj
        simp only [getD_replicate, zero_add] at he1 he2
        have hd1 := getD_of_get? _ _ _ he1
        have hd2 := getD_of_get? _ _ _ he2
        constructor
        · rw [List.get?_map, he1]
          rfl
        · rw [List.get?_map]
          have hzip : (List.zipWith
              (fun b a => b / ((v0 :: v1 :: rest2).length : Rat) - sq a)
              ((v0 :: v1 :: rest2).foldl accumStep
                (List.replicate v0.length 0, List.replicate v0.length 0)).2
              (((v0 :: v1 :: rest2).foldl accumStep
                (List.replicate v0.length 0, List.replicate v0.length 0)).1.map
                (· / ((v0 :: v1 :: rest2).length : Rat)))).get? j =
              some ((((v0 :: v1 :: rest2).map (fun v => sq (v.getD j 0))).sum
                  / ((v0 :: v1 :: rest2).length : Rat))
                - sq ((((v0 :: v1 :: rest2).map (fun v => v.getD j 0)).sum
                  / ((v0 :: v1 :: rest2).length : Rat)))) := by
            rw [get?_eq_some_getD _ j
              (by rw [List.length_zipWith, List.length_map, hlen2, Nat.min_self]; exact hj)]
            rw [getD_zipWith _ _ _ j (by rw [hlen2]; exact hj)
              (by rw [List.length_map]; exact hj)]
            rw [hd2, getD_map _ _ j hj, hd1]
          rw [hzip]
          rfl

/-! ### The partition property of `_group_by` -/

/-- Uniform-depth well-formedness of a nested-dict value: consuming exactly
`n` keys from this node reaches a leaf bucket.  Maintained by `_group_by`
because every inserted path has length `len(list_group_keys)` when no
group value is `None`. -/
inductive WFN : NVal → Nat → Prop where
  | leaf (cs : List Config) : WFN (.configs cs) 0
  | node (es : List (String × NVal)) (m : Nat)
      (h : ∀ p ∈ es, WFN p.2 m) : WFN (.dict es) (m + 1)

theorem mem_assocSet {α : Type} (k : String) (v : α) (p : String × α) :
    ∀ (d : List (String × α)), p ∈ assocSet d k v → p = (k, v) ∨ p ∈ d := by
  intro d
  induction d with
  | nil => intro h; simp [assocSet] at h
  | cons q rest ih =>
      obtain ⟨k1, w⟩ := q
      intro h
      by_cases hk : k1 = k
      · simp only [assocSet, if_pos hk] at h
        rcases List.mem_cons.mp h with h1 | h1
        · exact Or.inl h1
        · exact Or.inr (List.mem_cons_of_mem _ h1)
      · simp only [assocSet, if_neg hk] at h
        rcases List.mem_cons.mp h with h1 | h1
        · exact Or.inr (by rw [h1]; exact List.mem_cons_self _ _)
        · rcases ih h1 with h2 | h2
          · exact Or.inl h2
          · exact Or.inr (List.mem_cons_of_mem _ h2)

theorem pathRunsD_lookup_none (k : String) (rest : List String) :
    ∀ (d : List (String × NVal)), assocLookup d k = Option.none →
      pathRunsD d k rest = [] := by
  intro d
  induction d with
  | nil => intro h; rfl
  | cons p es ih =>
      obtain ⟨k1, v⟩ := p
      intro h
      by_cases hk : k1 = k
      · simp [assocLookup, hk] at h
      · simp only [assocLookup, if_neg hk] at h
        simp only [pathRunsD, if_neg hk]
        exact ih h

theorem pathRunsD_lookup_some (k : String) (rest : List String) (v : NVal) :
    ∀ (d : List (String × NVal)), assocLookup d k = some v →
      pathRunsD d k rest = pathRunsV v rest := by
  intro d
  induction d with
  | nil => intro h; simp [assocLookup] at h
  | cons p es ih =>
      obtain ⟨k1, w⟩ := p
      intro h
      by_cases hk : k1 = k
      · simp only [assocLookup, if_pos hk, Option.some.injEq] at h
        simp only [pathRunsD, if_pos hk, h]
      · simp only [assocLookup, if_neg hk] at h
        simp only [pathRunsD, if_neg hk]
        exact ih h

theorem pathRunsD_append_self (k : String) (rest : List String) (v : NVal) :
    ∀ (d : List (String × NVal)), assocLookup d k = Option.none →
      pathRunsD (d ++ [(k, v)]) k rest = pathRunsV v rest := by
  intro d
  induction d with
  | nil => intro _; simp [pathRunsD]
  | cons p es ih =>
      obtain ⟨k1, w⟩ := p
      intro h
      by_cases hk : k1 = k
      · simp [assocLookup, hk] at h
      · simp only [assocLookup, if_neg hk] at h
        simp only [List.cons_append, pathRunsD, if_neg hk]
        exact ih h

theorem pathRunsD_append_ne (k k' : String) (rest : List String) (v : NVal)
    (hne : k ≠ k') :
    ∀ (d : List (String × NVal)),
      pathRunsD (d ++ [(k, v)]) k' rest = pathRunsD d k' rest := by
  intro d
  induction d with
  | nil => simp [pathRunsD, hne]
  | cons p es ih =>
      obtain ⟨k1, w⟩ := p
      by_cases hk : k1 = k'
      · simp only [List.cons_append, pathRunsD, if_pos hk]
      · simp only [List.cons_append, pathRunsD, if_neg hk]
        exact ih

theorem pathRunsD_set_self (k : String) (rest : List String) (v : NVal) :
    ∀ (d : List (String × NVal)), (assocLookup d k).isSome →
      pathRunsD (assocSet d k v) k rest = pathRunsV v rest := by
  intro d
  induction d with
  | nil => intro h; simp [assocLookup] at h
  | cons p es ih =>
      obtain ⟨k1, w⟩ := p
      intro h
      by_cases hk : k1 = k
      · simp [assocSet, if_pos hk, pathRunsD]
      · simp only [assocLookup, if_neg hk] at h
        simp only [assocSet, if_neg hk, pathRunsD, if_neg hk]
        exact ih h

theorem pathRunsD_set_ne (k k' : String) (rest : List String) (v : NVal)
    (hne : k ≠ k') :
    ∀ (d : List (String × NVal)),
      pathRunsD (assocSet d k v) k' rest = pathRunsD d k' rest := by
  intro d
  induction d with
  | nil => rfl
  | cons p es ih =>
      obtain ⟨k1, w⟩ := p
      by_cases hk : k1 = k
      · have hk1 : ¬ k1 = k' := by rw [hk]; exact hne
        simp only [assocSet, if_pos hk, pathRunsD, if_neg hne, if_neg hk1]
      · by_cases hk1 : k1 = k'
        · simp only [assocSet, if_neg hk, pathRunsD, if_pos hk1]
        · simp only [assocSet, if_neg hk, pathRunsD, if_neg hk1]
          exact ih

theorem reduceGet_eq_pathRuns :
    ∀ (t : List String) (v : NVal), pathRunsV v t ≠ [] →
      reduceGetV v t = .ok (pathRunsV v t) := by
  intro t
  induction t with
  | nil =>
      intro v h
      cases v with
      | configs cs => simp [reduceGetV, pathRunsV]
      | dict es => simp [pathRunsV] at h
  | cons k rest ih =>
      intro v h
      cases v with
      | configs cs => simp [pathRunsV] at h
      | dict es =>
          simp only [pathRunsV] at h ⊢
          simp only [reduceGetV]
          induction es with
          | nil => simp [pathRunsD] at h
          | cons p es2 ih2 =>
              obtain ⟨k1, w⟩ := p
              by_cases hk : k1 = k
              · simp only [pathRunsD, if_pos hk] at h ⊢
                simp only [reduceGetD, if_pos hk]
                exact ih w h
              · simp only [pathRunsD, if_neg hk] at h ⊢
                simp only [reduceGetD, if_neg hk]
                exact ih2 h

theorem mem_insertTuple (gv : List (List String)) (t t' : List String) :
    t' ∈ insertTuple gv t ↔ t' ∈ gv ∨ t' = t := by
  rw [insertTuple]
  by_cases h : t ∈ gv
  · simp only [if_pos h]
    constructor
    · exact Or.inl
    · rintro (h1 | rfl)
      · exact h1
      · exact h
  · simp [if_neg h, List.mem_append]

theorem nodup_insertTuple (gv : List (List String)) (t : List String)
    (h : gv.Nodup) : (insertTuple gv t).Nodup := by
  rw [insertTuple]
  by_cases hm : t ∈ gv
  · simpa [if_pos hm] using h
  · rw [if_neg hm]
    simp [List.nodup_append, h, hm]

theorem flatten_filter_perm {α β : Type} [DecidableEq β] (f : α → β) :
    ∀ (ts : List β), ts.Nodup → ∀ (l : List α), (∀ x ∈ l, f x ∈ ts) →
      ((ts.map fun t => l.filter fun x => decide (f x = t)).flatten).Perm l := by
  intro ts
  induction ts with
  | nil =>
      intro _ l h
      cases l with
      | nil => simp
      | cons a l2 => exact absurd (h a (by simp)) (by simp)
  | cons t ts2 ih =>
      intro hnd l h
      have hnd2 : ts2.Nodup := (List.nodup_cons.mp hnd).2
      have htn : t ∉ ts2 := (List.nodup_cons.mp hnd).1
      simp only [List.map_cons, List.flatten_cons]
      have hmap : (ts2.map fun u => l.filter fun x => decide (f x = u)) =
          ts2.map fun u => (l.filter fun x => !decide (f x = t)).filter
            fun x => decide (f x = u) := by
        refine List.map_congr_left ?_
        intro u hu
        rw [List.filter_filter]
        refine List.filter_congr ?_
        intro x hx
        by_cases hft : f x = u
        · have hut : ¬ u = t := fun hh => htn (hh ▸ hu)
          simp [hft, hut]
        · simp [hft]
      rw [hmap]
      have hcov : ∀ x ∈ l.filter fun x => !decide (f x = t), f x ∈ ts2 := by
        intro x hx
        obtain ⟨hxl, hxf⟩ := List.mem_filter.mp hx
        simp at hxf
        rcases List.mem_cons.mp (h x hxl) with h1 | h1
        · exact absurd h1 hxf
        · exact h1
      exact List.Perm.trans (List.Perm.append_left _ (ih hnd2 _ hcov))
        (List.filter_append_perm _ l)

theorem WFN_lookup (d : List (String × NVal)) (m : Nat) (k : String) (v : NVal)
    (hwf : ∀ p ∈ d, WFN p.2 m) (h : assocLookup d k = some v) : WFN v m :=
  hwf (k, v) (assocLookup_mem d k v h)

theorem WFN_entries_append (d : List (String × NVal)) (m : Nat) (k : String) (v : NVal)
    (hd : ∀ p ∈ d, WFN p.2 m) (hv : WFN v m) :
    ∀ p ∈ d ++ [(k, v)], WFN p.2 m := by
  intro p hp
  rcases List.mem_append.mp hp with h1 | h1
  · exact hd p h1
  · simp only [List.mem_singleton] at h1
    rw [h1]
    exact hv

theorem WFN_entries_set (d : List (String × NVal)) (m : Nat) (k : String) (v : NVal)
    (hd : ∀ p ∈ d, WFN p.2 m) (hv : WFN v m) :
    ∀ p ∈ assocSet d k v, WFN p.2 m := by
  intro p hp
  rcases mem_assocSet k v p d hp with h1 | h1
  · rw [h1]
    exact hv
  · exact hd p h1

theorem addNested_spec (val : List Config) :
    ∀ (rest : List String) (k : String) (d : List (String × NVal)),
      (∀ p ∈ d, WFN p.2 rest.length) →
      ∃ d', addNestedKeysVal d (k :: rest) val = .ok d'
        ∧ (∀ p ∈ d', WFN p.2 rest.length)
        ∧ pathRunsD d' k rest = pathRunsD d k rest ++ val
        ∧ ∀ k' rest2, rest2.length = rest.length → ¬ (k' = k ∧ rest2 = rest) →
            pathRunsD d' k' rest2 = pathRunsD d k' rest2 := by
  intro rest
  induction rest with
  | nil =>
      intro k d hwf
      cases hlk : assocLookup d k with
      | none =>
          refine ⟨d ++ [(k, .configs val)], ?_, ?_, ?_, ?_⟩
          · simp only [addNestedKeysVal, hlk]
          · exact WFN_entries_append d 0 k _ hwf (WFN.leaf val)
          · rw [pathRunsD_append_self k [] _ d hlk, pathRunsD_lookup_none k [] d hlk]
            rfl
          · intro k' rest2 hlen2 hne
            have hr2 : rest2 = [] := List.length_eq_zero.mp hlen2
            subst hr2
            have hk : k ≠ k' := by
              intro hh
              exact hne ⟨hh.symm, rfl⟩
            exact pathRunsD_append_ne k k' [] _ hk d
      | some v =>
          cases v with
          | configs cs =>
              refine ⟨assocSet d k (.configs (cs ++ val)), ?_, ?_, ?_, ?_⟩
              · simp only [addNestedKeysVal, hlk]
              · exact WFN_entries_set d 0 k _ hwf (WFN.leaf _)
              · rw [pathRunsD_set_self k [] _ d (by rw [hlk]; rfl),
                  pathRunsD_lookup_some k [] _ d hlk]
                rfl
              · intro k' rest2 hlen2 hne
                have hr2 : rest2 = [] := List.length_eq_zero.mp hlen2
                subst hr2
                have hk : k ≠ k' := by
                  intro hh
                  exact hne ⟨hh.symm, rfl⟩
                exact pathRunsD_set_ne k k' [] _ hk d
          | dict es =>
              exact absurd (WFN_lookup d 0 k _ hwf hlk) (by intro hh; cases hh)
  | cons k2 rest2 ih =>
      intro k d hwf
      cases hlk : assocLookup d k with
      | none =>
          obtain ⟨sub, hsub, hsubwf, hsubpath, hsubother⟩ :=
            ih k2 [] (by intro p hp; simp at hp)
          refine ⟨d ++ [(k, .dict sub)], ?_, ?_, ?_, ?_⟩
          · simp only [addNestedKeysVal, hlk, hsub]
          · exact WFN_entries_append d _ k _ hwf (WFN.node sub rest2.length hsubwf)
          · rw [pathRunsD_append_self k _ _ d hlk, pathRunsD_lookup_none k _ d hlk]
            simp only [pathRunsV]
            rw [hsubpath]
            rfl
          · intro k' t2 hlen2 hne
            cases t2 with
            | nil => simp at hlen2
            | cons t2h t2t =>
                by_cases hk : k' = k
                · subst hk
                  rw [pathRunsD_append_self _ _ _ d hlk, pathRunsD_lookup_none _ _ d hlk]
                  simp only [pathRunsV]
                  have hne2 : ¬ (t2h = k2 ∧ t2t = rest2) := by
                    rintro ⟨h1, h2⟩
                    exact hne ⟨rfl, by rw [h1, h2]⟩
                  rw [hsubother t2h t2t (by simpa using hlen2) hne2]
                  rfl
                · exact pathRunsD_append_ne k k' _ _ (fun hh => hk hh.symm) d
      | some v =>
          cases v with
          | configs cs =>
              have hcfg := WFN_lookup d _ k _ hwf hlk
              exact absurd hcfg (by intro hh; cases hh)
          | dict es =>
              have hnode := WFN_lookup d _ k _ hwf hlk
              have hsubwf0 : ∀ p ∈ es, WFN p.2 rest2.length := by
                cases hnode with
                | node _ _ h => exact h
              obtain ⟨sub, hsub, hsubwf, hsubpath, hsubother⟩ := ih k2 es hsubwf0
              refine ⟨assocSet d k (.dict sub), ?_, ?_, ?_, ?_⟩
              · simp only [addNestedKeysVal, hlk, hsub]
              · exact WFN_entries_set d _ k _ hwf (WFN.node sub rest2.length hsubwf)
              · rw [pathRunsD_set_self k _ _ d (by rw [hlk]; rfl),
                  pathRunsD_lookup_some k _ _ d hlk]
                simp only [pathRunsV]
                exact hsubpath
              · intro k' t2 hlen2 hne
                cases t2 with
                | nil => simp at hlen2
                | cons t2h t2t =>
                    by_cases hk : k' = k
                    · subst hk
                      rw [pathRunsD_set_self _ _ _ d (by rw [hlk]; rfl),
                        pathRunsD_lookup_some _ _ _ d hlk]
                      simp only [pathRunsV]
                      have hne2 : ¬ (t2h = k2 ∧ t2t = rest2) := by
                        rintro ⟨h1, h2⟩
                        exact hne ⟨rfl, by rw [h1, h2]⟩
                      exact hsubother t2h t2t (by simpa using hlen2) hne2
                    · exact pathRunsD_set_ne k k' _ _ (fun hh => hk hh.symm) d

theorem pkeyList_ok (c : Config) :
    ∀ (keys : List String),
      (∀ k ∈ keys, (assocLookup c.flattened k).isSome) →
      pkeyList c keys = .ok (keys.map fun k => (assocLookup c.flattened k).getD .none) := by
  intro keys
  induction keys with
  | nil => intro _; rfl
  | cons k ks ih =>
      intro h
      obtain ⟨v, hv⟩ := Option.isSome_iff_exists.mp (h k (by simp))
      simp only [pkeyList, hv, ih (fun k2 hk2 => h k2 (by simp [hk2])), List.map_cons,
        Option.getD_some]

theorem tupleOf_length (c : Config) :
    ∀ (keys : List String),
      (∀ k ∈ keys, ∃ v, assocLookup c.flattened k = some v ∧ v.isNone = false) →
      (tupleOf keys c).length = keys.length := by
  intro keys
  induction keys with
  | nil => intro _; rfl
  | cons k ks ih =>
      intro h
      obtain ⟨v, hv, hvn⟩ := h k (by simp)
      have ih2 := ih (fun k2 hk2 => h k2 (by simp [hk2]))
      simp only [tupleOf, pkeyVal, List.map_cons, hv, Option.getD_some, List.filter_cons,
        hvn, Bool.not_false, if_true, List.length_cons, List.length_map]
      simp only [tupleOf, pkeyVal, List.length_map] at ih2
      omega

theorem buildGroups_spec (k0 : String) (ks : List String) :
    ∀ (cs : List Config) (d : List (String × NVal)) (gv : List (List String)),
      (∀ c ∈ cs, ∀ k ∈ k0 :: ks, ∃ v, assocLookup c.flattened k = some v ∧ v.isNone = false) →
      (∀ p ∈ d, WFN p.2 ks.length) →
      ∃ d' gv', buildGroups cs (k0 :: ks) d gv = .ok (d', gv')
        ∧ (∀ p ∈ d', WFN p.2 ks.length)
        ∧ (∀ t, t.length = ks.length + 1 → pathRunsV (.dict d') t =
            pathRunsV (.dict d) t ++ cs.filter (fun c => decide (tupleOf (k0 :: ks) c = t)))
        ∧ (∀ t, t ∈ gv' ↔ t ∈ gv ∨ ∃ c ∈ cs, tupleOf (k0 :: ks) c = t)
        ∧ (gv.Nodup → gv'.Nodup)
        ∧ ((∀ t ∈ gv, t.length = ks.length + 1) → ∀ t ∈ gv', t.length = ks.length + 1) := by
  intro cs
  induction cs with
  | nil =>
      intro d gv _ hwf
      refine ⟨d, gv, rfl, hwf, ?_, ?_, fun hh => hh, fun hh => hh⟩
      · intro t _
        simp
      · intro t
        simp
  | cons c cs2 ih =>
      intro d gv h hwf
      have hc := h c (by simp)
      have hpk : pkeyList c (k0 :: ks) =
          .ok ((k0 :: ks).map fun k => (assocLookup c.flattened k).getD .none) :=
        pkeyList_ok c (k0 :: ks) (by
          intro k hk
          obtain ⟨v, hv, _⟩ := hc k hk
          rw [hv]
          rfl)
      have htup : pkeyVal ((k0 :: ks).map fun k => (assocLookup c.flattened k).getD .none) =
          tupleOf (k0 :: ks) c := rfl
      have hlen : (tupleOf (k0 :: ks) c).length = ks.length + 1 := by
        rw [tupleOf_length c (k0 :: ks) hc]
        rfl
      cases htc : tupleOf (k0 :: ks) c with
      | nil => rw [htc] at hlen; simp at hlen
      | cons tk trest =>
          have htrest : trest.length = ks.length := by
            rw [htc] at hlen
            simpa using hlen
          obtain ⟨d1, hd1, hd1wf, hd1self, hd1other⟩ :=
            addNested_spec [c] trest tk d (by rw [htrest]; exact hwf)
          obtain ⟨d2, gv2, hbg, hwf2, hpath2, hmem2, hnd2, hlen2⟩ :=
            ih d1 (insertTuple gv (tupleOf (k0 :: ks) c))
              (fun c2 hc2 => h c2 (by simp [hc2]))
              (by rw [← htrest]; exact hd1wf)
          refine ⟨d2, gv2, ?_, hwf2, ?_, ?_, ?_, ?_⟩
          · simp only [buildGroups, hpk, htup, htc, hd1]
            rw [← htc]
            exact hbg
          · intro t hlt
            rw [hpath2 t hlt]
            cases t with
            | nil => simp at hlt
            | cons th tt =>
                by_cases hteq : th = tk ∧ tt = trest
                · obtain ⟨h1, h2⟩ := hteq
                  subst h1
                  subst h2
                  simp only [pathRunsV]
                  rw [hd1self]
                  have hfc : tupleOf (k0 :: ks) c = th :: tt := htc
                  simp only [List.filter_cons, hfc, decide_eq_true_eq, if_pos rfl]
                  simp
                · simp only [pathRunsV]
                  rw [hd1other th tt (by rw [htrest]; simpa using hlt) hteq]
                  have hfc : ¬ (tupleOf (k0 :: ks) c = th :: tt) := by
                    rw [htc]
                    intro hh
                    injection hh with hh1 hh2
                    exact hteq ⟨hh1.symm, hh2.symm⟩
                  simp only [List.filter_cons, hfc, decide_eq_true_eq]
                  simp [hfc]
          · intro t
            rw [hmem2 t, mem_insertTuple]
            constructor
            · rintro ((h1 | h1) | h1)
              · exact Or.inl h1
              · exact Or.inr ⟨c, by simp, h1.symm⟩
              · obtain ⟨c2, hc2, hc2t⟩ := h1
                exact Or.inr ⟨c2, by simp [hc2], hc2t⟩
            · rintro (h1 | h1)
              · exact Or.inl (Or.inl h1)
              · obtain ⟨c2, hc2, hc2t⟩ := h1
                rcases List.mem_cons.mp hc2 with h2 | h2
                · exact Or.inl (Or.inr (by rw [← h2]; exact hc2t.symm))
                · exact Or.inr ⟨c2, h2, hc2t⟩
          · intro hgv
            exact hnd2 (nodup_insertTuple gv _ hgv)
          · intro hgvlen
            refine hlen2 ?_
            intro t ht
            rcases (mem_insertTuple gv _ t).mp ht with h1 | h1
            · exact hgvlen t h1
            · rw [h1]
              exact hlen

theorem collectGroups_ok (cd : List (String × NVal)) (f : List String → List Config) :
    ∀ (ts : List (List String)), (∀ t ∈ ts, reduceGetV (.dict cd) t = .ok (f t)) →
      collectGroups cd ts = .ok (ts.map fun t => (t, f t)) := by
  intro ts
  induction ts with
  | nil => intro _; rfl
  | cons t ts2 ih =>
      intro h
      simp only [collectGroups, h t (by simp), ih (fun t2 ht2 => h t2 (by simp [ht2])),
        List.map_cons]

/-- C1 counterexample: the claimed partition property is not universal.  On a
collection of one run whose (valid) grouping column `metadata.lr` holds
`None`, `pkey_val` filters the `None` out, `_add_nested_keys_val` receives
the empty key tuple, its `for` loop never runs, and the trailing
`parent[key] = ...` reads the unbound local `key`: `_group_by` crashes with
`UnboundLocalError` instead of returning a partition. -/
theorem c1_partition_counterexample :
    groupByCore [⟨[("metadata.lr", PyVal.none)], []⟩] ["metadata.lr"] =
      .error .unboundLocalError := rfl

/-- C1 (amended): on a nonempty key list, and runs whose grouping columns are
all present with non-`None` values, `_group_by` partitions the runs: it
returns one leaf per distinct group-value tuple (the tuple of `str(...)`
renderings, as the code builds them), each leaf holding exactly the runs
whose tuple equals its key in original order; flattening the leaves back to
a table (`GroupedConfigs.toPandasDF`) recovers a permutation of the original
rows — no run gained, lost or duplicated — and the number of leaves equals
the number of distinct tuples occurring among the runs (`group_vals` is
duplicate-free and holds exactly the occurring tuples). -/
theorem c1_group_partition (k0 : String) (ks : List String) (cs : List Config)
    (h : ∀ c ∈ cs, ∀ k ∈ k0 :: ks, ∃ v, assocLookup c.flattened k = some v ∧ v.isNone = false) :
    ∃ gv, groupByCore cs (k0 :: ks) =
        .ok (gv.map (fun t => (t, cs.filter fun c => decide (tupleOf (k0 :: ks) c = t))),
             k0 :: ks, gv)
      ∧ gv.Nodup
      ∧ (∀ t, t ∈ gv ↔ ∃ c ∈ cs, tupleOf (k0 :: ks) c = t)
      ∧ List.Perm (flattenGroups (gv.map (fun t =>
          (t, cs.filter fun c => decide (tupleOf (k0 :: ks) c = t))))) cs
      ∧ (gv.map (fun t =>
          (t, cs.filter fun c => decide (tupleOf (k0 :: ks) c = t)))).length = gv.length := by
  obtain ⟨d, gv, hbg, hwf, hpath, hmem, hnd, hlen⟩ :=
    buildGroups_spec k0 ks cs [] [] h (by intro p hp; simp at hp)
  have hmem2 : ∀ t, t ∈ gv ↔ ∃ c ∈ cs, tupleOf (k0 :: ks) c = t := by
    intro t
    rw [hmem t]
    simp
  have hnd2 : gv.Nodup := hnd List.nodup_nil
  have hlen2 : ∀ t ∈ gv, t.length = ks.length + 1 := hlen (by intro t ht; simp at ht)
  have hfib : ∀ t ∈ gv, pathRunsV (.dict d) t =
      cs.filter fun c => decide (tupleOf (k0 :: ks) c = t) := by
    intro t ht
    rw [hpath t (hlen2 t ht)]
    cases t with
    | nil =>
        have := hlen2 [] ht
        simp at this
    | cons th tt =>
        simp only [pathRunsV, pathRunsD]
        simp
  have hred : ∀ t ∈ gv, reduceGetV (.dict d) t =
      .ok (cs.filter fun c => decide (tupleOf (k0 :: ks) c = t)) := by
    intro t ht
    have hne : pathRunsV (.dict d) t ≠ [] := by
      rw [hfib t ht]
      obtain ⟨c, hc, hct⟩ := (hmem2 t).mp ht
      intro hh
      have hcf : c ∈ cs.filter fun c => decide (tupleOf (k0 :: ks) c = t) :=
        List.mem_filter.mpr ⟨hc, by simp [hct]⟩
      rw [hh] at hcf
      simp at hcf
    rw [← hfib t ht]
    exact reduceGet_eq_pathRuns t (.dict d) hne
  have hcol := collectGroups_ok d
    (fun t => cs.filter fun c => decide (tupleOf (k0 :: ks) c = t)) gv hred
  refine ⟨gv, ?_, hnd2, hmem2, ?_, by rw [List.length_map]⟩
  · simp only [groupByCore, hbg, hcol]
  · have hcov : ∀ c ∈ cs, tupleOf (k0 :: ks) c ∈ gv := by
      intro c hc
      exact (hmem2 _).mpr ⟨c, hc, rfl⟩
    have hperm := flatten_filter_perm (tupleOf (k0 :: ks)) gv hnd2 cs hcov
    simpa [flattenGroups, List.map_map, Function.comp] using hperm

/-- Witness for C1 at a concrete instance: three runs with `a = "x"`,
`a = "y"`, `a = "x"` group into two leaves — the two `x`-runs and the one
`y`-run — whose flattening recovers all three rows. -/
theorem c1_group_partition_witness :
    (∀ c ∈ ([⟨[("a", PyVal.str "x")], []⟩, ⟨[("a", PyVal.str "y")], []⟩,
        ⟨[("a", PyVal.str "x")], []⟩] : List Config),
      ∀ k ∈ ["a"], ∃ v, assocLookup c.flattened k = some v ∧ v.isNone = false)
    ∧ (∃ gv, groupByCore [⟨[("a", PyVal.str "x")], []⟩, ⟨[("a", PyVal.str "y")], []⟩,
          ⟨[("a", PyVal.str "x")], []⟩] ["a"] =
        .ok (gv.map (fun t => (t,
              [⟨[("a", PyVal.str "x")], []⟩, ⟨[("a", PyVal.str "y")], []⟩,
               ⟨[("a", PyVal.str "x")], []⟩].filter fun c => decide (tupleOf ["a"] c = t))),
             ["a"], gv)
        ∧ gv.Nodup
        ∧ (∀ t, t ∈ gv ↔ ∃ c ∈ [⟨[("a", PyVal.str "x")], []⟩, ⟨[("a", PyVal.str "y")], []⟩,
            ⟨[("a", PyVal.str "x")], []⟩], tupleOf ["a"] c = t)
        ∧ List.Perm (flattenGroups (gv.map (fun t => (t,
            [⟨[("a", PyVal.str "x")], []⟩, ⟨[("a", PyVal.str "y")], []⟩,
             ⟨[("a", PyVal.str "x")], []⟩].filter fun c => decide (tupleOf ["a"] c = t)))))
            [⟨[("a", PyVal.str "x")], []⟩, ⟨[("a", PyVal.str "y")], []⟩,
             ⟨[("a", PyVal.str "x")], []⟩]
        ∧ (gv.map (fun t => (t,
            [⟨[("a", PyVal.str "x")], []⟩, ⟨[("a", PyVal.str "y")], []⟩,
             ⟨[("a", PyVal.str "x")], []⟩].filter fun c =>
              decide (tupleOf ["a"] c = t)))).length = gv.length)
    ∧ groupByCore [⟨[("a", PyVal.str "x")], []⟩, ⟨[("a", PyVal.str "y")], []⟩,
          ⟨[("a", PyVal.str "x")], []⟩] ["a"] =
        .ok ([(["x"], [⟨[("a", PyVal.str "x")], []⟩, ⟨[("a", PyVal.str "x")], []⟩]),
              (["y"], [⟨[("a", PyVal.str "y")], []⟩])], ["a"], [["x"], ["y"]]) := by
  have hhyp : ∀ c ∈ ([⟨[("a", PyVal.str "x")], []⟩, ⟨[("a", PyVal.str "y")], []⟩,
      ⟨[("a", PyVal.str "x")], []⟩] : List Config),
      ∀ k ∈ ["a"], ∃ v, assocLookup c.flattened k = some v ∧ v.isNone = false := by
    intro c hc k hk
    simp only [List.mem_cons, List.not_mem_nil, or_false] at hc hk
    subst hk
    rcases hc with rfl | rfl | rfl
    · exact ⟨.str "x", rfl, rfl⟩
    · exact ⟨.str "y", rfl, rfl⟩
    · exact ⟨.str "x", rfl, rfl⟩
  exact ⟨hhyp, c1_group_partition "a" [] _ hhyp, rfl⟩

theorem asRatList_map_num (l : List Rat) :
    PyVal.asRatList (.list (l.map PyVal.num)) = some l := by
  induction l with
  | nil => rfl
  | cons q rest ih =>
      simp only [PyVal.asRatList, List.map_cons, List.foldr_cons]
      simp only [PyVal.asRatList] at ih
      rw [ih]

theorem seqsOf_list_num (k : String) (seqs : List (List Rat)) :
    seqsOf k ((seqs.map fun l => PyVal.list (l.map PyVal.num)).map fun v => [(k, v)]) =
      .ok seqs := by
  induction seqs with
  | nil => rfl
  | cons l rest ih =>
      simp only [List.map_cons, seqsOf, assocLookup]
      rw [List.map_map] at ih
      simp [ih, asRatList_map_num]

/-- C3: on an eager leaf group where the target field holds a numeric
sequence in every run, `AvgStd` succeeds; the mean curve's length is the
running minimum of the sequence lengths (each accumulation step truncates to
the shorter length), the std curve has the same length, entry `j` of the
mean is the mean of the surviving `j`-th entries and entry `j` of the std is
the population standard deviation `sqrt(sum_sq/n - mean^2)` (`ratSqrt` is
the exact-rational restriction of `np.sqrt`); and aggregation attaches the
two curves under `field_avg` / `field_std` to *every* run of the group (the
map returns no representative index, so the whole deep-copied collection is
updated). -/
theorem c3_avgstd_curves (k : String) (c0 : Config) (crest : List Config)
    (h : ∀ c ∈ c0 :: crest, c.lazydata_dict = [] ∧
      ∃ l : List Rat, assocLookup c.flattened k = some (.list (l.map PyVal.num))) :
    ∃ avg std,
      computeMeanAndStd (fieldSeqs k (c0 :: crest)) = .ok (avg, std)
      ∧ avg.length = (fieldSeqs k (c0 :: crest)).foldl
          (fun a v => Nat.min a v.length) (fieldSeq k c0).length
      ∧ std.length = avg.length
      ∧ (fieldSeqs k (c0 :: crest)).length = (c0 :: crest).length
      ∧ (∀ j, j < avg.length →
          avg.get? j = some (((fieldSeqs k (c0 :: crest)).map (fun v => v.getD j 0)).sum
              / ((fieldSeqs k (c0 :: crest)).length : Rat))
          ∧ std.get? j = some (ratSqrt
              (((fieldSeqs k (c0 :: crest)).map (fun v => sq (v.getD j 0))).sum
                  / ((fieldSeqs k (c0 :: crest)).length : Rat)
                - sq (((fieldSeqs k (c0 :: crest)).map (fun v => v.getD j 0)).sum
                  / ((fieldSeqs k (c0 :: crest)).length : Rat)))))
      ∧ aggregateCollection (c0 :: crest) [.avgstd k] =
          .ok [("avgstd(" ++ k ++ ")",
            (c0 :: crest).map fun c => c.update
              [(k ++ "_avg", .list (avg.map PyVal.num)),
               (k ++ "_std", .list (std.map PyVal.num))])] := by
  obtain ⟨avg, std, hcms, hlen, hstdlen, hentries⟩ :=
    computeMeanAndStd_spec (fieldSeq k c0) (fieldSeqs k crest)
  have hcms2 : computeMeanAndStd (fieldSeqs k (c0 :: crest)) = .ok (avg, std) := hcms
  refine ⟨avg, std, hcms2, hlen, hstdlen, by simp [fieldSeqs], hentries, ?_⟩
  have hstr : ∀ c ∈ c0 :: crest, c.lazydata_dict = [] ∧
      ∃ v, assocLookup c.flattened k = some v ∧ v.isStrVal = false := by
    intro c hc
    obtain ⟨hld, l, hl⟩ := h c hc
    exact ⟨hld, _, hl, rfl⟩
  have hagg := aggregateCollection_eager_single (c0 :: crest) k (.avgstd k) rfl hstr
  have hfv : fieldVals k (c0 :: crest) =
      (fieldSeqs k (c0 :: crest)).map (fun l => PyVal.list (l.map PyVal.num)) := by
    rw [fieldVals, fieldSeqs, List.map_map]
    refine List.map_congr_left ?_
    intro c hc
    obtain ⟨hld, l, hl⟩ := h c hc
    simp only [Function.comp_apply, hl, Option.getD_some, fieldSeq, Option.some_bind,
      asRatList_map_num]
  have happ : AggMap.apply (.avgstd k)
      ((fieldVals k (c0 :: crest)).map fun v => [(k, v)]) =
      .ok ([(k ++ "_avg", .list (avg.map PyVal.num)),
            (k ++ "_std", .list (std.map PyVal.num))], Option.none) := by
    show avgstdApply k ((fieldVals k (c0 :: crest)).map fun v => [(k, v)]) = _
    rw [hfv, avgstdApply, seqsOf_list_num]
    show (match computeMeanAndStd (fieldSeqs k (c0 :: crest)) with
          | Except.error e => (Except.error e : Except PyErr (SDict × Option Int))
          | Except.ok (avg, std) =>
              Except.ok ([(k ++ "_avg", .list (avg.map PyVal.num)),
                (k ++ "_std", .list (std.map PyVal.num))], Option.none)) = _
    rw [hcms2]
  rw [hagg, applyMaps_single_none _ _ _ _ happ]
  rfl

/-- Witness for C3 at the claim's concrete instance: two runs whose field
`f` holds the sequences `[1,2,3]` and `[1,2]` aggregate to a mean curve
`[1,2]` of length 2 (the third point is dropped) and a std curve `[0,0]`,
attached to both runs. -/
theorem c3_avgstd_curves_witness :
    (∀ c ∈ ([⟨[("f", PyVal.list [.num 1, .num 2, .num 3])], []⟩,
        ⟨[("f", PyVal.list [.num 1, .num 2])], []⟩] : List Config),
      c.lazydata_dict = [] ∧
      ∃ l : List Rat, assocLookup c.flattened "f" = some (.list (l.map PyVal.num)))
    ∧ computeMeanAndStd (fieldSeqs "f"
        [⟨[("f", PyVal.list [.num 1, .num 2, .num 3])], []⟩,
         ⟨[("f", PyVal.list [.num 1, .num 2])], []⟩]) = .ok ([1, 2], [0, 0])
    ∧ aggregateCollection
        [⟨[("f", PyVal.list [.num 1, .num 2, .num 3])], []⟩,
         ⟨[("f", PyVal.list [.num 1, .num 2])], []⟩] [.avgstd "f"] =
      .ok [("avgstd(f)",
        [⟨[("f", PyVal.list [.num 1, .num 2, .num 3]),
           ("f_avg", PyVal.list [.num 1, .num 2]),
           ("f_std", PyVal.list [.num 0, .num 0])], []⟩,
         ⟨[("f", PyVal.list [.num 1, .num 2]),
           ("f_avg", PyVal.list [.num 1, .num 2]),
           ("f_std", PyVal.list [.num 0, .num 0])], []⟩])] := by
  have hhyp : ∀ c ∈ ([⟨[("f", PyVal.list [.num 1, .num 2, .num 3])], []⟩,
      ⟨[("f", PyVal.list [.num 1, .num 2])], []⟩] : List Config),
      c.lazydata_dict = [] ∧
      ∃ l : List Rat, assocLookup c.flattened "f" = some (.list (l.map PyVal.num)) := by
    intro c hc
    simp only [List.mem_cons, List.not_mem_nil, or_false] at hc
    rcases hc with rfl | rfl
    · exact ⟨rfl, [1, 2, 3], rfl⟩
    · exact ⟨rfl, [1, 2], rfl⟩
  obtain ⟨avg, std, hcms, hlen, hstdlen, hn, hentries, hagg⟩ :=
    c3_avgstd_curves "f" ⟨[("f", PyVal.list [.num 1, .num 2, .num 3])], []⟩
      [⟨[("f", PyVal.list [.num 1, .num 2])], []⟩] hhyp
  have hconc : computeMeanAndStd (fieldSeqs "f"
      [⟨[("f", PyVal.list [.num 1, .num 2, .num 3])], []⟩,
       ⟨[("f", PyVal.list [.num 1, .num 2])], []⟩]) = .ok ([1, 2], [0, 0]) := by
    show computeMeanAndStd [[1, 2, 3], [1, 2]] = .ok ([1, 2], [0, 0])
    rw [computeMeanAndStd]
    norm_num [accumStep, sq, ratSqrt_zero, List.replicate, List.zipWith, List.take]
  refine ⟨hhyp, hconc, ?_⟩
  rw [hcms] at hconc
  have hpair := Except.ok.inj hconc
  have havg : avg = [1, 2] := congrArg Prod.fst hpair
  have hstd : std = [0, 0] := congrArg Prod.snd hpair
  rw [havg, hstd] at hagg
  rw [hagg]
  rfl

end Mlxp
